import Mathlib

/-!
Verification of the asynchronous message-framing decoder (`src/async.rs`) and
the text builder (`src/text.rs`) of the capnproto-rust repository.

Modelling conventions:
* A byte is a `Nat`; reading a `u32` applies `% 256` to each byte, which is the
  identity on every value a real `u8` can hold.
* The `std::io::Read` collaborator is modelled as a list of read events
  (`ByteStream`): each call to `read` consumes the head event, which either
  delivers bytes (`Ok(n)`; an empty delivery is `Ok(0)`, i.e. end of stream),
  reports `WouldBlock`, reports `Interrupted`, or fails with another error.
  A `bytes` event holding more data than the destination buffer can take
  delivers a prefix and leaves the remainder at the head of the stream.
  An exhausted event list behaves like `WouldBlock` (no data available now).
* Byte buffers that the Rust code fills in place (`buf: [u8; 8]` / `Box<[u8]>`
  / `Vec<Word>` with a fill index `idx`) are modelled by their filled prefix
  (a `List Nat` of length `idx`) together with the allocated length, carried
  separately.  The unfilled tail of a real buffer is all zeroes and is never
  inspected before being overwritten, so no information is lost.
* Heap allocations whose size an attacker could influence are recorded in an
  allocation log (`Alloc`) returned by `read_message`, so that ordering claims
  ("the limit check happens before the proportional allocation") are statable.
* Panics (`AsyncValue::unwrap` on the wrong variant) are modelled by `Option`:
  `none` is a panic.
-/

deriving instance DecidableEq for Except

/-- A byte of input.  Real bytes are `< 256`; `read_u32_le` coerces with `% 256`
exactly where the Rust code reinterprets raw `u8`s as integers. -/
abbrev Byte := Nat

/-- One result of a call to the non-blocking `Read::read` collaborator. -/
inductive ReadEvent : Type
  | bytes (data : List Byte)
  | wouldBlock
  | interrupted
  | ioError (code : Nat)
deriving DecidableEq

/-- The byte source: the scripted sequence of outcomes its successive `read`
calls produce. -/
abbrev ByteStream := List ReadEvent

/-- The `io::Error` values relevant to `async_read_all`: the "Premature EOF"
error it constructs itself, and any other propagated stream error. -/
inductive IoError : Type
  | prematureEof
  | other (code : Nat)
deriving DecidableEq

/-- The `capnp::Error` type as used by this module: a decode error carrying a
description and an optional detail string, or a wrapped I/O error. -/
inductive Error : Type
  | decode (msg : String) (detail : Option String)
  | ioError (e : IoError)
deriving DecidableEq

/-- The decode-options record (collaborator `message::ReaderOptions`), reduced
to the single field this module consults. -/
structure ReaderOptions : Type where
  traversal_limit_in_words : Nat
deriving DecidableEq

/-- One heap allocation performed by `read_message`, recorded for the
allocation-ordering claims: the phase-2 segment-table buffer
(`create_segment_table_buf`, in bytes) or the word buffer
(`Word::allocate_zeroed_vec`, in words). -/
inductive Alloc : Type
  | tableBuf (len : Nat)
  | wordBuf (words : Nat)
deriving DecidableEq

/-- The value of an async operation (`AsyncValue` in `src/async.rs`): either
completed, or a continuation to resume later. -/
inductive AsyncValue (T U : Type) : Type
  | Complete (val : T)
  | Continue (continuation : U)
deriving DecidableEq

/-- Model of `AsyncValue::unwrap`: returns the completed value; `none` models the
`panic!` on a `Continue` value. -/
def AsyncValue.unwrap {T U : Type} : AsyncValue T U → Option T
  | .Complete val => some val
  | .Continue _ => none

/-- Model of `AsyncValue::unwrap_continuation`: returns the continuation; `none` models
the `panic!` on a `Complete` value. -/
def AsyncValue.unwrap_continuation {T U : Type} : AsyncValue T U → Option U
  | .Complete _ => none
  | .Continue continuation => some continuation

/-- Model of `ReadContinuation` in `src/async.rs`: the per-phase suspended state.
Buffers are represented by filled prefix plus allocated length (see header
note); `idx` of the Rust code is the length of the stored prefix. -/
inductive ReadContinuation : Type
  | segmentTableFirst (buf : List Byte)
  | segmentTableRest (segment_count first_segment_len buf_len : Nat) (buf : List Byte)
  | segments (segment_slices : List (Nat × Nat)) (total_words : Nat) (buf : List Byte)
deriving DecidableEq

/-- The finished message reader (`serialize::OwnedSpaceMessageReader` as
populated by `read_segments`): options, segment slices (word ranges) and the
owned word buffer.  The derived arena view is an opaque collaborator and is
not modelled.  A word is its list of 8 bytes. -/
structure OwnedSpaceMessageReader : Type where
  options : ReaderOptions
  segment_slices : List (Nat × Nat)
  owned_space : List (List Byte)
deriving DecidableEq

/-- Modelled from the spec: the finished-message-reader's get-segment-by-index
accessor (spec section 6; `MessageReader::get_segment` lives in `serialize.rs`,
outside `src/`).  Segment `i` is the sub-range of the owned word buffer named
by slice `i`; out of range reads yield `[]` (the Rust accessor panics). -/
def OwnedSpaceMessageReader.get_segment (m : OwnedSpaceMessageReader) (i : Nat) :
    List (List Byte) :=
  match m.segment_slices.get? i with
  | some se => (m.owned_space.drop se.1).take (se.2 - se.1)
  | none => []

/-- Model of `AsyncRead` in `src/async.rs`. -/
abbrev AsyncRead := AsyncValue OwnedSpaceMessageReader ReadContinuation

/-- A non-blocking buffered source holding exactly the bytes `l`: one `bytes`
event (empty `l` means no data is currently available, so reads would block
immediately). -/
def feed (l : List Byte) : ByteStream :=
  if l.isEmpty then [] else [.bytes l]

/-- Model of `async_read_all` (`src/async.rs` lines 140-153), relative to the free
space `cap` of the destination buffer: loops reading until the buffer is full
or the read would block; `Ok(0)` with space remaining is a premature EOF;
`Interrupted` is retried; other errors propagate.  Returns the bytes obtained
and the rest of the stream. -/
def async_read_all : ByteStream → Nat → Except IoError (List Byte × ByteStream)
  | s, 0 => .ok ([], s)
  | [], _ + 1 => .ok ([], [])
  | .bytes l :: s, cap + 1 =>
    if l = [] then .error .prematureEof
    else if l.length ≤ cap + 1 then
      match async_read_all s (cap + 1 - l.length) with
      | .ok (rest, s1) => .ok (l ++ rest, s1)
      | .error e => .error e
    else .ok (l.take (cap + 1), .bytes (l.drop (cap + 1)) :: s)
  | .wouldBlock :: s, _ + 1 => .ok ([], s)
  | .interrupted :: s, cap + 1 => async_read_all s (cap + 1)
  | .ioError e :: _, _ + 1 => .error (.other e)

/-- Model of `<LittleEndian as ByteOrder>::read_u32` on (the first four bytes of) a
chunk; `% 256` models the `u8` width of each byte. -/
def read_u32_le (b : List Byte) : Nat :=
  b.headD 0 % 256 + 256 * (b.getD 1 0 % 256) + 65536 * (b.getD 2 0 % 256) +
    16777216 * (b.getD 3 0 % 256)

/-- The parsing/validation tail of `read_segment_table_first` (`src/async.rs`
lines 172-183), applied once the 8-byte table-first buffer is full: the wrapped
`+ 1` segment count, the too-many / too-few checks, and the first segment
length. -/
def parse_segment_table_first (buf : List Byte) : Except Error (Nat × Nat) :=
  let segment_count := (read_u32_le (buf.take 4) + 1) % 4294967296
  if 512 ≤ segment_count then
    .error (.decode "Too many segments." (some (toString segment_count)))
  else if segment_count = 0 then
    .error (.decode "Too few segments." (some (toString segment_count)))
  else
    .ok (segment_count, read_u32_le ((buf.drop 4).take 4))

/-- Model of `read_segment_table_first` (`src/async.rs` lines 158-184).  `buf` is the
filled prefix of the 8-byte scratch buffer (its length is the Rust `idx`). -/
def read_segment_table_first (s : ByteStream) (buf : List Byte) :
    Except Error (AsyncValue (Nat × Nat) ReadContinuation × ByteStream) :=
  match async_read_all s (8 - buf.length) with
  | .error e => .error (.ioError e)
  | .ok (got, s1) =>
    let buf1 := buf ++ got
    if buf1.length < 8 then
      .ok (.Continue (.segmentTableFirst buf1), s1)
    else
      match parse_segment_table_first buf1 with
      | .error e => .error e
      | .ok v => .ok (.Complete v, s1)

/-- Fuel-driven worker for `chunksOf` (structural recursion so the kernel can
evaluate it). -/
def chunksOfGo (n : Nat) : Nat → List Byte → List (List Byte)
  | 0, _ => []
  | _, [] => []
  | fuel + 1, x :: xs => ((x :: xs).take n) :: chunksOfGo n fuel ((x :: xs).drop n)

/-- Model of `slice::chunks(n)`: the list split into consecutive chunks of `n` bytes,
the last chunk possibly shorter. -/
def chunksOf (n : Nat) (l : List Byte) : List (List Byte) :=
  chunksOfGo n l.length l

/-- The slice-building loop of `read_segment_table_rest` (`src/async.rs` lines
208-216): starting from `(0, first_segment_len)`, each 4-byte chunk appends the
slice `(total, total + len)` and accumulates `total_words`. -/
def build_segment_slices (first_segment_len : Nat) (chunks : List (List Byte)) :
    Nat × List (Nat × Nat) :=
  chunks.foldl
    (fun acc chunk =>
      let segment_len := read_u32_le chunk
      (acc.1 + segment_len, acc.2 ++ [(acc.1, acc.1 + segment_len)]))
    (first_segment_len, [(0, first_segment_len)])

/-- The parsing/validation tail of `read_segment_table_rest` (`src/async.rs`
lines 208-227), applied once the table buffer is full: interpret the first
`segment_count - 1` 4-byte chunks, then enforce the traversal limit before any
word-buffer allocation. -/
def parse_segment_table_rest (options : ReaderOptions)
    (segment_count first_segment_len : Nat) (buf : List Byte) :
    Except Error (Nat × List (Nat × Nat)) :=
  let r := build_segment_slices first_segment_len
    ((chunksOf 4 buf).take (segment_count - 1))
  if options.traversal_limit_in_words < r.1 then
    .error (.decode
      "Message is too large. To increase the limit on the receiving end, see capnp::ReaderOptions."
      (some (toString r.1)))
  else
    .ok r

/-- Model of `create_segment_table_buf` (`src/async.rs` lines 270-274), as the length of
the zeroed buffer it allocates: segment count rounded down to the nearest even
number times 4 bytes per value. -/
def create_segment_table_buf (segment_count : Nat) : Nat :=
  segment_count / 2 * 8

/-- Model of `read_segment_table_rest` (`src/async.rs` lines 189-228).  `buf` is the
filled prefix of the table buffer, `buf_len` its allocated length. -/
def read_segment_table_rest (s : ByteStream) (options : ReaderOptions)
    (segment_count first_segment_len : Nat) (buf : List Byte) (buf_len : Nat) :
    Except Error (AsyncValue (Nat × List (Nat × Nat)) ReadContinuation × ByteStream) :=
  match async_read_all s (buf_len - buf.length) with
  | .error e => .error (.ioError e)
  | .ok (got, s1) =>
    let buf1 := buf ++ got
    if buf1.length < buf_len then
      .ok (.Continue (.segmentTableRest segment_count first_segment_len buf_len buf1), s1)
    else
      match parse_segment_table_rest options segment_count first_segment_len buf1 with
      | .error e => .error e
      | .ok v => .ok (.Complete v, s1)

/-- Model of `read_segments` (`src/async.rs` lines 231-267).  `buf` is the filled byte
prefix of the word buffer (`total_words` words, i.e. `total_words * 8` bytes).
On completion the buffer is regrouped into words; the arena construction over
the per-segment views is an opaque collaborator and is not modelled. -/
def read_segments (s : ByteStream) (options : ReaderOptions)
    (segment_slices : List (Nat × Nat)) (total_words : Nat) (buf : List Byte) :
    Except Error (AsyncRead × ByteStream) :=
  match async_read_all s (total_words * 8 - buf.length) with
  | .error e => .error (.ioError e)
  | .ok (got, s1) =>
    let buf1 := buf ++ got
    if buf1.length < total_words * 8 then
      .ok (.Continue (.segments segment_slices total_words buf1), s1)
    else
      .ok (.Complete ⟨options, segment_slices, chunksOf 8 buf1⟩, s1)

/-- The body of `read_message` (`src/async.rs` lines 114-136), generalized over
the initial fill of the 8-byte table-first buffer (`read_message` itself starts
from the empty prefix; resuming a `SegmentTableFirst` continuation starts from
its saved prefix).  Also returns the allocation log: the phase-2 table buffer
is allocated exactly when phase 2 is entered, the word buffer exactly when the
segment table is complete. -/
def read_message_from (s : ByteStream) (options : ReaderOptions) (buf0 : List Byte) :
    Except Error (AsyncRead × ByteStream) × List Alloc :=
  match read_segment_table_first s buf0 with
  | .error e => (.error e, [])
  | .ok (.Continue c, s1) => (.ok (.Continue c, s1), [])
  | .ok (.Complete (segment_count, first_segment_len), s1) =>
    if segment_count = 1 then
      (read_segments s1 options [(0, first_segment_len)] first_segment_len [],
        [.wordBuf first_segment_len])
    else
      match read_segment_table_rest s1 options segment_count first_segment_len []
          (create_segment_table_buf segment_count) with
      | .error e => (.error e, [.tableBuf (create_segment_table_buf segment_count)])
      | .ok (.Continue c, s2) =>
        (.ok (.Continue c, s2), [.tableBuf (create_segment_table_buf segment_count)])
      | .ok (.Complete (total_words, segment_slices), s2) =>
        (read_segments s2 options segment_slices total_words [],
          [.tableBuf (create_segment_table_buf segment_count), .wordBuf total_words])

/-- Model of `read_message` (`src/async.rs` lines 114-136), with the allocation log. -/
def read_message (s : ByteStream) (options : ReaderOptions) :
    Except Error (AsyncRead × ByteStream) × List Alloc :=
  read_message_from s options []

/-- Modelled from the spec: the resume entry points of sections 4.5 and 9
(`read_message`'s phases are resumed by re-invoking the phase matching the
continuation's tag with its saved state; no single such dispatcher exists in
`src/`, the caller owns it).  Allocations already performed before the suspend
are not repeated; allocations the resumed phases perform are logged as in
`read_message`. -/
def resume_message (c : ReadContinuation) (s : ByteStream) (options : ReaderOptions) :
    Except Error (AsyncRead × ByteStream) × List Alloc :=
  match c with
  | .segmentTableFirst buf => read_message_from s options buf
  | .segmentTableRest segment_count first_segment_len buf_len buf =>
    match read_segment_table_rest s options segment_count first_segment_len buf buf_len with
    | .error e => (.error e, [])
    | .ok (.Continue c2, s1) => (.ok (.Continue c2, s1), [])
    | .ok (.Complete (total_words, segment_slices), s1) =>
      (read_segments s1 options segment_slices total_words [], [.wordBuf total_words])
  | .segments segment_slices total_words buf =>
    (read_segments s options segment_slices total_words buf, [])

/-- Modelled from the spec: the caller-owned resume loop of sections 4.5 and 9,
feeding one more chunk of newly arrived bytes per resume attempt, accumulating
the allocation log, and stopping at the first completed or failed result. -/
def drive_message (options : ReaderOptions) :
    Except Error (AsyncRead × ByteStream) × List Alloc → List (List Byte) →
    Except Error (AsyncRead × ByteStream) × List Alloc
  | r, [] => r
  | (.ok (.Continue c, _), log), chunk :: rest =>
    let r2 := resume_message c (feed chunk) options
    drive_message options (r2.1, log ++ r2.2) rest
  | r, _ :: _ => r

/-- Modelled from the spec: decode a message whose bytes arrive in the given
successive chunks, suspending between chunks (sections 4.5, 8.1). -/
def read_message_chunked (options : ReaderOptions) (chunks : List (List Byte)) :
    Except Error (AsyncRead × ByteStream) × List Alloc :=
  match chunks with
  | [] => read_message [] options
  | chunk :: rest => drive_message options (read_message (feed chunk) options) rest

/-- Model of `read_segment_table` (the composition used by the tests in `src/async.rs`
lines 295-313): phase 1, then either the single-segment shortcut or phase 2. -/
def read_segment_table (s : ByteStream) (options : ReaderOptions) :
    Except Error (AsyncValue (Nat × List (Nat × Nat)) ReadContinuation × ByteStream) :=
  match read_segment_table_first s [] with
  | .error e => .error e
  | .ok (.Continue c, s1) => .ok (.Continue c, s1)
  | .ok (.Complete (segment_count, first_segment_len), s1) =>
    if segment_count = 1 then
      .ok (.Complete (first_segment_len, [(0, first_segment_len)]), s1)
    else
      read_segment_table_rest s1 options segment_count first_segment_len []
        (create_segment_table_buf segment_count)

/-- Consecutive slices starting at `start`, one per length: specification-level
description of the slice list phase 2 builds ("first slice is
`(0, first_segment_len)`; each subsequent slice starts where the previous ended
and spans its decoded length"). -/
def slicesFrom (start : Nat) : List Nat → List (Nat × Nat)
  | [] => []
  | len :: rest => (start, start + len) :: slicesFrom (start + len) rest

/-- Little-endian 4-byte encoding of a 32-bit value. -/
def u32le (n : Nat) : List Byte :=
  [n % 256, n / 256 % 256, n / 65536 % 256, n / 16777216 % 256]

/-- Modelled from the spec: the wire-format segment table (section 6; the
encoder `write_message_segments` lives in `serialize.rs`, outside `src/`):
`u32 (count - 1)`, `u32 first_len`, the remaining lengths, and 4 zero padding
bytes when the count is even. -/
def encode_seg_table (lens : List Nat) : List Byte :=
  match lens with
  | [] => []
  | l0 :: rest =>
    u32le (lens.length - 1) ++ u32le l0 ++ (rest.map u32le).flatten ++
      (if lens.length % 2 = 0 then [0, 0, 0, 0] else [])

/-- Modelled from the spec: the full wire encoding of a segment list (section
6): the segment table followed by each segment's raw words in order. -/
def encode_message (segments : List (List (List Byte))) : List Byte :=
  encode_seg_table (segments.map List.length) ++ (segments.map List.flatten).flatten

/-- Is the byte a UTF-8 continuation byte (`0x80..=0xBF`)? -/
def contByte (b : Byte) : Bool :=
  128 ≤ b && b ≤ 191

/-- Modelled from the spec: `std::str::from_utf8` validation (collaborator of
`src/text.rs`; spec section 7, "a decode error when a text field buffer does
not validate as UTF-8"), following the standard UTF-8 byte patterns of RFC
3629. -/
def validUtf8 : List Byte → Bool
  | [] => true
  | b :: rest =>
    if b ≤ 127 then validUtf8 rest
    else if 194 ≤ b && b ≤ 223 then
      match rest with
      | b1 :: r => contByte b1 && validUtf8 r
      | [] => false
    else if b = 224 then
      match rest with
      | b1 :: b2 :: r => (160 ≤ b1 && b1 ≤ 191) && contByte b2 && validUtf8 r
      | _ => false
    else if (225 ≤ b && b ≤ 236) || b = 238 || b = 239 then
      match rest with
      | b1 :: b2 :: r => contByte b1 && contByte b2 && validUtf8 r
      | _ => false
    else if b = 237 then
      match rest with
      | b1 :: b2 :: r => (128 ≤ b1 && b1 ≤ 159) && contByte b2 && validUtf8 r
      | _ => false
    else if b = 240 then
      match rest with
      | b1 :: b2 :: b3 :: r =>
        (144 ≤ b1 && b1 ≤ 191) && contByte b2 && contByte b3 && validUtf8 r
      | _ => false
    else if 241 ≤ b && b ≤ 243 then
      match rest with
      | b1 :: b2 :: b3 :: r =>
        contByte b1 && contByte b2 && contByte b3 && validUtf8 r
      | _ => false
    else if b = 244 then
      match rest with
      | b1 :: b2 :: b3 :: r =>
        (128 ≤ b1 && b1 ≤ 143) && contByte b2 && contByte b3 && validUtf8 r
      | _ => false
    else false

/-- Model of `text::Builder` (`src/text.rs` lines 50-53): the byte buffer and the write
position. -/
structure TextBuilder : Type where
  bytes : List Byte
  pos : Nat
deriving DecidableEq

/-- Model of `text::Builder::new` (`src/text.rs` lines 57-66): validates UTF-8 only when
`pos != 0` (the detail string derived from `std`'s `Utf8Error` is abstracted to
`none`). -/
def TextBuilder.new (bytes : List Byte) (pos : Nat) : Except Error TextBuilder :=
  if pos ≠ 0 then
    if validUtf8 bytes then .ok ⟨bytes, pos⟩
    else .error (.decode "Text contains non-utf8 data." none)
  else .ok ⟨bytes, pos⟩

/-- Appending later-arriving bytes to a buffered non-blocking source. -/
def streamApp (s : ByteStream) (l : List Byte) : ByteStream :=
  match s with
  | [] => feed l
  | [.bytes r] => feed (r ++ l)
  | s => s ++ [.bytes l]

/-- Forgets the final stream position of a decode outcome, keeping the decoded
value (or error) and the allocation log. -/
def obsOf (r : Except Error (AsyncRead × ByteStream) × List Alloc) :
    Except Error AsyncRead × List Alloc :=
  (r.1.map Prod.fst, r.2)

/-! ## Basic facts about the drain primitive on buffered non-blocking sources -/

/-- With no free space, `async_read_all` returns immediately without touching
the stream. -/
theorem async_read_all_zero (s : ByteStream) : async_read_all s 0 = .ok ([], s) := by
  cases s with
  | nil => rfl
  | cons e t => cases e <;> rfl

/-- On an exhausted event list, `async_read_all` returns no bytes. -/
theorem async_read_all_nil (cap : Nat) : async_read_all [] cap = .ok ([], []) := by
  cases cap <;> rfl

/-- Draining from a buffered non-blocking source holding `l` yields the first
`cap` bytes of `l` and leaves the rest buffered. -/
theorem async_read_all_feed (l : List Byte) (cap : Nat) :
    async_read_all (feed l) cap = .ok (l.take cap, feed (l.drop cap)) := by
  cases l with
  | nil => cases cap <;> simp [feed, async_read_all]
  | cons x xs =>
    cases cap with
    | zero => simp [feed, async_read_all_zero]
    | succ n =>
      by_cases hle : (x :: xs).length ≤ n + 1
      · have hle' : xs.length ≤ n := by
          simp only [List.length_cons] at hle
          omega
        have ht : (x :: xs).take (n + 1) = x :: xs := List.take_of_length_le hle
        have hd : (x :: xs).drop (n + 1) = [] := List.drop_eq_nil_of_le hle
        simp [feed, async_read_all, hle', ht, hd, async_read_all_nil]
      · have hd : ¬ ((x :: xs).drop (n + 1)).isEmpty = true := by
          rw [List.isEmpty_iff, List.drop_eq_nil_iff]
          omega
        have hle' : ¬ xs.length ≤ n := by
          simp only [List.length_cons] at hle
          omega
        simp [feed, async_read_all, hle', hd]

/-- Arithmetic of filling a buffer of target size `t`, whose filled prefix is
`p`, from a source holding `l`. -/
theorem fill_facts (p l : List Byte) (t : Nat) :
    ((p ++ l.take (t - p.length)).length < t ↔ p.length + l.length < t) ∧
    (p.length + l.length < t → l.take (t - p.length) = l ∧ l.drop (t - p.length) = []) := by
  refine ⟨?_, fun h => ⟨List.take_of_length_le (by omega), List.drop_eq_nil_of_le (by omega)⟩⟩
  simp only [List.length_append, List.length_take]
  omega

/-- Splitting `take` across an append when the first part is exhausted. -/
theorem take_concat_of_le (l1 l2 : List Byte) (c : Nat) (h : l1.length ≤ c) :
    (l1 ++ l2).take c = l1 ++ l2.take (c - l1.length) := by
  have hc : c = l1.length + (c - l1.length) := by omega
  conv_lhs => rw [hc]
  rw [List.take_append]

/-- Splitting `drop` across an append when the first part is exhausted. -/
theorem drop_concat_of_le (l1 l2 : List Byte) (c : Nat) (h : l1.length ≤ c) :
    (l1 ++ l2).drop c = l2.drop (c - l1.length) := by
  have hc : c = l1.length + (c - l1.length) := by omega
  conv_lhs => rw [hc]
  rw [List.drop_append]

/-- Appending to a buffered source commutes with `feed`. -/
theorem streamApp_feed (r l : List Byte) : streamApp (feed r) l = feed (r ++ l) := by
  cases r <;> simp [feed, streamApp]

/-! ## Closed forms for the three phases on buffered sources -/

/-- Phase 1 suspends exactly when fewer than 8 bytes are available in total,
storing everything it saw and leaving an empty source. -/
theorem read_segment_table_first_suspends (p l : List Byte)
    (h : p.length + l.length < 8) :
    read_segment_table_first (feed l) p =
      .ok (.Continue (.segmentTableFirst (p ++ l)), []) := by
  obtain ⟨ht, hd⟩ := (fill_facts p l 8).2 h
  have hlt : (p ++ l.take (8 - p.length)).length < 8 := (fill_facts p l 8).1.mpr h
  unfold read_segment_table_first
  rw [async_read_all_feed]
  dsimp only
  rw [if_pos hlt, ht, hd]
  rfl

/-- Phase 1 with at least 8 bytes available in total: the 8-byte buffer fills
and is parsed; the surplus stays buffered. -/
theorem read_segment_table_first_fills (p l : List Byte)
    (h : 8 ≤ p.length + l.length) :
    read_segment_table_first (feed l) p =
      (match parse_segment_table_first (p ++ l.take (8 - p.length)) with
       | .error e => .error e
       | .ok v => .ok (.Complete v, feed (l.drop (8 - p.length)))) := by
  have hlt : ¬ (p ++ l.take (8 - p.length)).length < 8 := by
    rw [(fill_facts p l 8).1]
    omega
  unfold read_segment_table_first
  rw [async_read_all_feed]
  dsimp only
  rw [if_neg hlt]

/-- Phase 2 suspends exactly when the table buffer cannot be filled, storing
everything it saw and leaving an empty source. -/
theorem read_segment_table_rest_suspends (options : ReaderOptions)
    (segment_count first_segment_len : Nat) (p l : List Byte) (buf_len : Nat)
    (h : p.length + l.length < buf_len) :
    read_segment_table_rest (feed l) options segment_count first_segment_len p buf_len =
      .ok (.Continue (.segmentTableRest segment_count first_segment_len buf_len (p ++ l)),
        []) := by
  obtain ⟨ht, hd⟩ := (fill_facts p l buf_len).2 h
  have hlt : (p ++ l.take (buf_len - p.length)).length < buf_len :=
    (fill_facts p l buf_len).1.mpr h
  unfold read_segment_table_rest
  rw [async_read_all_feed]
  dsimp only
  rw [if_pos hlt, ht, hd]
  rfl

/-- Phase 2 with enough bytes available: the table buffer fills and is parsed;
the surplus stays buffered. -/
theorem read_segment_table_rest_fills (options : ReaderOptions)
    (segment_count first_segment_len : Nat) (p l : List Byte) (buf_len : Nat)
    (h : buf_len ≤ p.length + l.length) :
    read_segment_table_rest (feed l) options segment_count first_segment_len p buf_len =
      (match parse_segment_table_rest options segment_count first_segment_len
          (p ++ l.take (buf_len - p.length)) with
       | .error e => .error e
       | .ok v => .ok (.Complete v, feed (l.drop (buf_len - p.length)))) := by
  have hlt : ¬ (p ++ l.take (buf_len - p.length)).length < buf_len := by
    rw [(fill_facts p l buf_len).1]
    omega
  unfold read_segment_table_rest
  rw [async_read_all_feed]
  dsimp only
  rw [if_neg hlt]

/-- Phase 3 suspends exactly when the word buffer cannot be filled, storing
everything it saw and leaving an empty source. -/
theorem read_segments_suspends (options : ReaderOptions)
    (segment_slices : List (Nat × Nat)) (total_words : Nat) (p l : List Byte)
    (h : p.length + l.length < total_words * 8) :
    read_segments (feed l) options segment_slices total_words p =
      .ok (.Continue (.segments segment_slices total_words (p ++ l)), []) := by
  obtain ⟨ht, hd⟩ := (fill_facts p l (total_words * 8)).2 h
  have hlt : (p ++ l.take (total_words * 8 - p.length)).length < total_words * 8 :=
    (fill_facts p l (total_words * 8)).1.mpr h
  unfold read_segments
  rw [async_read_all_feed]
  dsimp only
  rw [if_pos hlt, ht, hd]
  rfl

/-- Phase 3 with enough bytes available: the word buffer fills and the message
is assembled; the surplus stays buffered. -/
theorem read_segments_fills (options : ReaderOptions)
    (segment_slices : List (Nat × Nat)) (total_words : Nat) (p l : List Byte)
    (h : total_words * 8 ≤ p.length + l.length) :
    read_segments (feed l) options segment_slices total_words p =
      .ok (.Complete ⟨options, segment_slices,
          chunksOf 8 (p ++ l.take (total_words * 8 - p.length))⟩,
        feed (l.drop (total_words * 8 - p.length))) := by
  have hlt : ¬ (p ++ l.take (total_words * 8 - p.length)).length < total_words * 8 := by
    rw [(fill_facts p l (total_words * 8)).1]
    omega
  unfold read_segments
  rw [async_read_all_feed]
  dsimp only
  rw [if_neg hlt]

/-! ## Suspend/resume decomposition, phase by phase -/

/-- Phase 1 inversion and split: if feeding `l1` suspends, the continuation
stores exactly the bytes seen, the source is exhausted, and decoding the two
chunks in sequence agrees with decoding their concatenation. -/
theorem read_segment_table_first_split (p l1 : List Byte) (c : ReadContinuation)
    (s1 : ByteStream)
    (hyp : read_segment_table_first (feed l1) p = .ok (.Continue c, s1)) :
    c = .segmentTableFirst (p ++ l1) ∧ s1 = [] ∧
      ∀ l2, read_segment_table_first (feed (l1 ++ l2)) p =
        read_segment_table_first (feed l2) (p ++ l1) := by
  by_cases h : p.length + l1.length < 8
  · rw [read_segment_table_first_suspends p l1 h] at hyp
    simp only [Except.ok.injEq, Prod.mk.injEq, AsyncValue.Continue.injEq] at hyp
    obtain ⟨hc, hs⟩ := hyp
    refine ⟨hc.symm, hs.symm, fun l2 => ?_⟩
    by_cases h2 : p.length + (l1.length + l2.length) < 8
    · rw [read_segment_table_first_suspends p (l1 ++ l2) (by simp; omega),
        read_segment_table_first_suspends (p ++ l1) l2 (by simp; omega)]
      simp
    · rw [read_segment_table_first_fills p (l1 ++ l2) (by simp; omega),
        read_segment_table_first_fills (p ++ l1) l2 (by simp; omega)]
      rw [take_concat_of_le l1 l2 (8 - p.length) (by omega),
        drop_concat_of_le l1 l2 (8 - p.length) (by omega)]
      simp only [List.length_append, List.append_assoc]
      have he : 8 - p.length - l1.length = 8 - (p.length + l1.length) := by omega
      rw [he]
  · rw [read_segment_table_first_fills p l1 (by omega)] at hyp
    rcases hp : parse_segment_table_first (p ++ l1.take (8 - p.length)) with e | v <;>
      rw [hp] at hyp <;> simp at hyp

/-- Phase 1 extension after completion: more buffered input does not change a
completed parse, it only stays buffered. -/
theorem read_segment_table_first_extend (p l1 : List Byte) (v : Nat × Nat)
    (s1 : ByteStream)
    (hyp : read_segment_table_first (feed l1) p = .ok (.Complete v, s1)) :
    ∃ r, s1 = feed r ∧
      ∀ l2, read_segment_table_first (feed (l1 ++ l2)) p =
        .ok (.Complete v, feed (r ++ l2)) := by
  by_cases h : p.length + l1.length < 8
  · rw [read_segment_table_first_suspends p l1 h] at hyp
    simp at hyp
  · rw [read_segment_table_first_fills p l1 (by omega)] at hyp
    rcases hp : parse_segment_table_first (p ++ l1.take (8 - p.length)) with e | w <;>
      rw [hp] at hyp <;> simp at hyp
    obtain ⟨hw, hs⟩ := hyp
    refine ⟨l1.drop (8 - p.length), hs.symm, fun l2 => ?_⟩
    rw [read_segment_table_first_fills p (l1 ++ l2) (by simp; omega),
      List.take_append_of_le_length (by omega),
      List.drop_append_of_le_length (by omega), hp, hw]

/-- Phase 1 extension after an error: more buffered input does not change a
failed parse. -/
theorem read_segment_table_first_error (p l1 : List Byte) (e : Error)
    (hyp : read_segment_table_first (feed l1) p = .error e) :
    ∀ l2, read_segment_table_first (feed (l1 ++ l2)) p = .error e := by
  intro l2
  by_cases h : p.length + l1.length < 8
  · rw [read_segment_table_first_suspends p l1 h] at hyp
    simp at hyp
  · rw [read_segment_table_first_fills p l1 (by omega)] at hyp
    rcases hp : parse_segment_table_first (p ++ l1.take (8 - p.length)) with e2 | w <;>
      rw [hp] at hyp <;> simp at hyp
    rw [read_segment_table_first_fills p (l1 ++ l2) (by simp; omega),
      List.take_append_of_le_length (by omega), hp, hyp]

/-- Phase 2 inversion and split, analogous to phase 1. -/
theorem read_segment_table_rest_split (options : ReaderOptions)
    (segment_count first_segment_len : Nat) (p l1 : List Byte) (buf_len : Nat)
    (c : ReadContinuation) (s1 : ByteStream)
    (hyp : read_segment_table_rest (feed l1) options segment_count first_segment_len p
      buf_len = .ok (.Continue c, s1)) :
    c = .segmentTableRest segment_count first_segment_len buf_len (p ++ l1) ∧ s1 = [] ∧
      ∀ l2, read_segment_table_rest (feed (l1 ++ l2)) options segment_count
          first_segment_len p buf_len =
        read_segment_table_rest (feed l2) options segment_count first_segment_len
          (p ++ l1) buf_len := by
  by_cases h : p.length + l1.length < buf_len
  · rw [read_segment_table_rest_suspends options segment_count first_segment_len p l1
      buf_len h] at hyp
    simp only [Except.ok.injEq, Prod.mk.injEq, AsyncValue.Continue.injEq] at hyp
    obtain ⟨hc, hs⟩ := hyp
    refine ⟨hc.symm, hs.symm, fun l2 => ?_⟩
    by_cases h2 : p.length + (l1.length + l2.length) < buf_len
    · rw [read_segment_table_rest_suspends options segment_count first_segment_len p
          (l1 ++ l2) buf_len (by simp; omega),
        read_segment_table_rest_suspends options segment_count first_segment_len
          (p ++ l1) l2 buf_len (by simp; omega)]
      simp
    · rw [read_segment_table_rest_fills options segment_count first_segment_len p
          (l1 ++ l2) buf_len (by simp; omega),
        read_segment_table_rest_fills options segment_count first_segment_len
          (p ++ l1) l2 buf_len (by simp; omega)]
      rw [take_concat_of_le l1 l2 (buf_len - p.length) (by omega),
        drop_concat_of_le l1 l2 (buf_len - p.length) (by omega)]
      simp only [List.length_append, List.append_assoc]
      have he : buf_len - p.length - l1.length = buf_len - (p.length + l1.length) := by
        omega
      rw [he]
  · rw [read_segment_table_rest_fills options segment_count first_segment_len p l1
      buf_len (by omega)] at hyp
    rcases hp : parse_segment_table_rest options segment_count first_segment_len
        (p ++ l1.take (buf_len - p.length)) with e | v <;>
      rw [hp] at hyp <;> simp at hyp

/-- Phase 2 extension after completion. -/
theorem read_segment_table_rest_extend (options : ReaderOptions)
    (segment_count first_segment_len : Nat) (p l1 : List Byte) (buf_len : Nat)
    (v : Nat × List (Nat × Nat)) (s1 : ByteStream)
    (hyp : read_segment_table_rest (feed l1) options segment_count first_segment_len p
      buf_len = .ok (.Complete v, s1)) :
    ∃ r, s1 = feed r ∧
      ∀ l2, read_segment_table_rest (feed (l1 ++ l2)) options segment_count
          first_segment_len p buf_len = .ok (.Complete v, feed (r ++ l2)) := by
  by_cases h : p.length + l1.length < buf_len
  · rw [read_segment_table_rest_suspends options segment_count first_segment_len p l1
      buf_len h] at hyp
    simp at hyp
  · rw [read_segment_table_rest_fills options segment_count first_segment_len p l1
      buf_len (by omega)] at hyp
    rcases hp : parse_segment_table_rest options segment_count first_segment_len
        (p ++ l1.take (buf_len - p.length)) with e | w <;>
      rw [hp] at hyp <;> simp at hyp
    obtain ⟨hw, hs⟩ := hyp
    refine ⟨l1.drop (buf_len - p.length), hs.symm, fun l2 => ?_⟩
    rw [read_segment_table_rest_fills options segment_count first_segment_len p
        (l1 ++ l2) buf_len (by simp; omega),
      List.take_append_of_le_length (by omega),
      List.drop_append_of_le_length (by omega), hp, hw]

/-- Phase 2 extension after an error. -/
theorem read_segment_table_rest_error (options : ReaderOptions)
    (segment_count first_segment_len : Nat) (p l1 : List Byte) (buf_len : Nat)
    (e : Error)
    (hyp : read_segment_table_rest (feed l1) options segment_count first_segment_len p
      buf_len = .error e) :
    ∀ l2, read_segment_table_rest (feed (l1 ++ l2)) options segment_count
      first_segment_len p buf_len = .error e := by
  intro l2
  by_cases h : p.length + l1.length < buf_len
  · rw [read_segment_table_rest_suspends options segment_count first_segment_len p l1
      buf_len h] at hyp
    simp at hyp
  · rw [read_segment_table_rest_fills options segment_count first_segment_len p l1
      buf_len (by omega)] at hyp
    rcases hp : parse_segment_table_rest options segment_count first_segment_len
        (p ++ l1.take (buf_len - p.length)) with e2 | w <;>
      rw [hp] at hyp <;> simp at hyp
    rw [read_segment_table_rest_fills options segment_count first_segment_len p
        (l1 ++ l2) buf_len (by simp; omega),
      List.take_append_of_le_length (by omega), hp, hyp]

/-- Phase 3 inversion and split, analogous to phase 1. -/
theorem read_segments_split (options : ReaderOptions)
    (segment_slices : List (Nat × Nat)) (total_words : Nat) (p l1 : List Byte)
    (c : ReadContinuation) (s1 : ByteStream)
    (hyp : read_segments (feed l1) options segment_slices total_words p =
      .ok (.Continue c, s1)) :
    c = .segments segment_slices total_words (p ++ l1) ∧ s1 = [] ∧
      ∀ l2, read_segments (feed (l1 ++ l2)) options segment_slices total_words p =
        read_segments (feed l2) options segment_slices total_words (p ++ l1) := by
  by_cases h : p.length + l1.length < total_words * 8
  · rw [read_segments_suspends options segment_slices total_words p l1 h] at hyp
    simp only [Except.ok.injEq, Prod.mk.injEq, AsyncValue.Continue.injEq] at hyp
    obtain ⟨hc, hs⟩ := hyp
    refine ⟨hc.symm, hs.symm, fun l2 => ?_⟩
    by_cases h2 : p.length + (l1.length + l2.length) < total_words * 8
    · rw [read_segments_suspends options segment_slices total_words p (l1 ++ l2)
          (by simp; omega),
        read_segments_suspends options segment_slices total_words (p ++ l1) l2
          (by simp; omega)]
      simp
    · rw [read_segments_fills options segment_slices total_words p (l1 ++ l2)
          (by simp; omega),
        read_segments_fills options segment_slices total_words (p ++ l1) l2
          (by simp; omega)]
      rw [take_concat_of_le l1 l2 (total_words * 8 - p.length) (by omega),
        drop_concat_of_le l1 l2 (total_words * 8 - p.length) (by omega)]
      simp only [List.length_append, List.append_assoc]
      have he : total_words * 8 - p.length - l1.length =
          total_words * 8 - (p.length + l1.length) := by omega
      rw [he]
  · rw [read_segments_fills options segment_slices total_words p l1 (by omega)] at hyp
    simp at hyp

/-- Phase 3 extension after completion. -/
theorem read_segments_extend (options : ReaderOptions)
    (segment_slices : List (Nat × Nat)) (total_words : Nat) (p l1 : List Byte)
    (m : OwnedSpaceMessageReader) (s1 : ByteStream)
    (hyp : read_segments (feed l1) options segment_slices total_words p =
      .ok (.Complete m, s1)) :
    ∃ r, s1 = feed r ∧
      ∀ l2, read_segments (feed (l1 ++ l2)) options segment_slices total_words p =
        .ok (.Complete m, feed (r ++ l2)) := by
  by_cases h : p.length + l1.length < total_words * 8
  · rw [read_segments_suspends options segment_slices total_words p l1 h] at hyp
    simp at hyp
  · rw [read_segments_fills options segment_slices total_words p l1 (by omega)] at hyp
    simp only [Except.ok.injEq, Prod.mk.injEq, AsyncValue.Complete.injEq] at hyp
    obtain ⟨hm, hs⟩ := hyp
    refine ⟨l1.drop (total_words * 8 - p.length), hs.symm, fun l2 => ?_⟩
    rw [read_segments_fills options segment_slices total_words p (l1 ++ l2)
        (by simp; omega),
      List.take_append_of_le_length (by omega),
      List.drop_append_of_le_length (by omega), hm]

/-- Phase 3 never fails on a buffered non-blocking source. -/
theorem read_segments_no_error (options : ReaderOptions)
    (segment_slices : List (Nat × Nat)) (total_words : Nat) (p l1 : List Byte)
    (e : Error)
    (hyp : read_segments (feed l1) options segment_slices total_words p = .error e) :
    False := by
  by_cases h : p.length + l1.length < total_words * 8
  · rw [read_segments_suspends options segment_slices total_words p l1 h] at hyp
    simp at hyp
  · rw [read_segments_fills options segment_slices total_words p l1 (by omega)] at hyp
    simp at hyp

/-! ## Suspend/resume decomposition for the orchestrated pipeline -/

/-- The function `read_message_from` only looks at the result of phase 1 (the reader state
is threaded through that result). -/
theorem read_message_from_congr {s s2 : ByteStream} {buf0 buf2 : List Byte}
    (options : ReaderOptions)
    (h : read_segment_table_first s buf0 = read_segment_table_first s2 buf2) :
    read_message_from s options buf0 = read_message_from s2 options buf2 := by
  unfold read_message_from
  rw [h]

/-- Extension of the whole pipeline after an error: more buffered input does
not change a failed decode. -/
theorem read_message_from_error (options : ReaderOptions) (buf : List Byte)
    (l1 : List Byte) (e : Error) (log : List Alloc)
    (hyp : read_message_from (feed l1) options buf = (.error e, log)) :
    ∀ l2, read_message_from (feed (l1 ++ l2)) options buf = (.error e, log) := by
  intro l2
  rcases h1 : read_segment_table_first (feed l1) buf with e1 | ⟨v | c0, s⟩
  · -- phase 1 failed
    unfold read_message_from at hyp ⊢
    rw [read_segment_table_first_error buf l1 e1 h1 l2]
    rw [h1] at hyp
    exact hyp
  · -- phase 1 completed
    obtain ⟨cnt, fsl⟩ := v
    obtain ⟨r, hs, hext⟩ := read_segment_table_first_extend buf l1 (cnt, fsl) s h1
    subst hs
    unfold read_message_from at hyp ⊢
    rw [h1] at hyp
    rw [hext l2]
    dsimp only at hyp ⊢
    by_cases hcnt : cnt = 1
    · subst hcnt
      simp only [reduceIte] at hyp ⊢
      simp only [Prod.mk.injEq] at hyp
      exact absurd hyp.1 (fun hres =>
        read_segments_no_error options [(0, fsl)] fsl [] r e hres)
    · rw [if_neg hcnt] at hyp ⊢
      rcases h2 : read_segment_table_rest (feed r) options cnt fsl []
          (create_segment_table_buf cnt) with e2 | ⟨w | c2, s2⟩
      · rw [h2] at hyp
        rw [read_segment_table_rest_error options cnt fsl [] r
          (create_segment_table_buf cnt) e2 h2 l2]
        exact hyp
      · obtain ⟨tw, sl⟩ := w
        obtain ⟨r2, hs2, hext2⟩ := read_segment_table_rest_extend options cnt fsl [] r
          (create_segment_table_buf cnt) (tw, sl) s2 h2
        subst hs2
        rw [h2] at hyp
        rw [hext2 l2]
        simp only [Prod.mk.injEq] at hyp
        exact absurd hyp.1 (fun hres =>
          read_segments_no_error options sl tw [] r2 e hres)
      · rw [h2] at hyp
        simp at hyp
  · -- phase 1 suspended: no error possible
    obtain ⟨-, -, -⟩ := read_segment_table_first_split buf l1 c0 s h1
    unfold read_message_from at hyp
    rw [h1] at hyp
    simp at hyp

/-- Extension of the whole pipeline after completion: more buffered input does
not change a completed decode, it only stays buffered. -/
theorem read_message_from_complete (options : ReaderOptions) (buf l1 : List Byte)
    (m : OwnedSpaceMessageReader) (s1 : ByteStream) (log : List Alloc)
    (hyp : read_message_from (feed l1) options buf = (.ok (.Complete m, s1), log)) :
    ∃ r, s1 = feed r ∧ ∀ l2, read_message_from (feed (l1 ++ l2)) options buf =
      (.ok (.Complete m, feed (r ++ l2)), log) := by
  rcases h1 : read_segment_table_first (feed l1) buf with e1 | ⟨v | c0, s⟩
  · unfold read_message_from at hyp
    rw [h1] at hyp
    simp at hyp
  · obtain ⟨cnt, fsl⟩ := v
    obtain ⟨r, hs, hext⟩ := read_segment_table_first_extend buf l1 (cnt, fsl) s h1
    subst hs
    unfold read_message_from at hyp
    rw [h1] at hyp
    dsimp only at hyp
    by_cases hcnt : cnt = 1
    · subst hcnt
      simp only [reduceIte, Prod.mk.injEq] at hyp
      obtain ⟨hres, hlog⟩ := hyp
      obtain ⟨r2, hs1, hext2⟩ := read_segments_extend options [(0, fsl)] fsl [] r m s1 hres
      refine ⟨r2, hs1, fun l2 => ?_⟩
      unfold read_message_from
      rw [hext l2]
      dsimp only
      simp only [reduceIte]
      rw [hext2 l2, hlog]
    · rw [if_neg hcnt] at hyp
      rcases h2 : read_segment_table_rest (feed r) options cnt fsl []
          (create_segment_table_buf cnt) with e2 | ⟨w | c2, s2⟩
      · rw [h2] at hyp
        simp at hyp
      · obtain ⟨tw, sl⟩ := w
        obtain ⟨r2, hs2, hext2⟩ := read_segment_table_rest_extend options cnt fsl [] r
          (create_segment_table_buf cnt) (tw, sl) s2 h2
        subst hs2
        rw [h2] at hyp
        simp only [Prod.mk.injEq] at hyp
        obtain ⟨hres, hlog⟩ := hyp
        obtain ⟨r3, hs1, hext3⟩ := read_segments_extend options sl tw [] r2 m s1 hres
        refine ⟨r3, hs1, fun l2 => ?_⟩
        unfold read_message_from
        rw [hext l2]
        dsimp only
        rw [if_neg hcnt, hext2 l2]
        dsimp only
        rw [hext3 l2, hlog]
      · rw [h2] at hyp
        simp at hyp
  · unfold read_message_from at hyp
    rw [h1] at hyp
    simp at hyp

/-- Suspend/resume decomposition of the whole pipeline: if feeding `l1`
suspends somewhere, the source is exhausted, and decoding the concatenation
agrees with resuming the saved continuation on the second chunk (allocation
logs concatenate). -/
theorem read_message_from_split (options : ReaderOptions) (buf l1 : List Byte)
    (c' : ReadContinuation) (s1 : ByteStream) (log : List Alloc)
    (hyp : read_message_from (feed l1) options buf = (.ok (.Continue c', s1), log)) :
    s1 = [] ∧ ∀ l2, read_message_from (feed (l1 ++ l2)) options buf =
      ((resume_message c' (feed l2) options).1,
        log ++ (resume_message c' (feed l2) options).2) := by
  rcases h1 : read_segment_table_first (feed l1) buf with e1 | ⟨v | c0, s⟩
  · unfold read_message_from at hyp
    rw [h1] at hyp
    simp at hyp
  · obtain ⟨cnt, fsl⟩ := v
    obtain ⟨r, hs, hext⟩ := read_segment_table_first_extend buf l1 (cnt, fsl) s h1
    subst hs
    unfold read_message_from at hyp
    rw [h1] at hyp
    dsimp only at hyp
    by_cases hcnt : cnt = 1
    · subst hcnt
      simp only [reduceIte, Prod.mk.injEq] at hyp
      obtain ⟨hres, hlog⟩ := hyp
      obtain ⟨hc', hs1, hsplit⟩ := read_segments_split options [(0, fsl)] fsl [] r c' s1 hres
      refine ⟨hs1, fun l2 => ?_⟩
      unfold read_message_from
      rw [hext l2]
      dsimp only
      simp only [reduceIte]
      rw [hsplit l2, hc', ← hlog]
      simp [resume_message]
    · rw [if_neg hcnt] at hyp
      rcases h2 : read_segment_table_rest (feed r) options cnt fsl []
          (create_segment_table_buf cnt) with e2 | ⟨w | c2, s2⟩
      · rw [h2] at hyp
        simp at hyp
      · obtain ⟨tw, sl⟩ := w
        obtain ⟨r2, hs2, hext2⟩ := read_segment_table_rest_extend options cnt fsl [] r
          (create_segment_table_buf cnt) (tw, sl) s2 h2
        subst hs2
        rw [h2] at hyp
        simp only [Prod.mk.injEq] at hyp
        obtain ⟨hres, hlog⟩ := hyp
        obtain ⟨hc', hs1, hsplit⟩ := read_segments_split options sl tw [] r2 c' s1 hres
        refine ⟨hs1, fun l2 => ?_⟩
        unfold read_message_from
        rw [hext l2]
        dsimp only
        rw [if_neg hcnt, hext2 l2]
        dsimp only
        rw [hsplit l2, hc', ← hlog]
        simp [resume_message]
      · rw [h2] at hyp
        simp only [Prod.mk.injEq, Except.ok.injEq, Prod.mk.injEq,
          AsyncValue.Continue.injEq] at hyp
        obtain ⟨⟨hc', hs1⟩, hlog⟩ := hyp
        obtain ⟨hc2, hs2, hsplit⟩ := read_segment_table_rest_split options cnt fsl [] r
          (create_segment_table_buf cnt) c2 s2 h2
        simp only [List.nil_append] at hc2 hsplit
        refine ⟨by rw [← hs1, hs2], fun l2 => ?_⟩
        unfold read_message_from
        rw [hext l2]
        dsimp only
        rw [if_neg hcnt, hsplit l2, ← hc', hc2, ← hlog]
        rcases h3 : read_segment_table_rest (feed l2) options cnt fsl r
            (create_segment_table_buf cnt) with e3 | ⟨w3 | c3, s3⟩
        · simp [resume_message, h3]
        · obtain ⟨tw3, sl3⟩ := w3
          simp [resume_message, h3]
        · simp [resume_message, h3]
  · unfold read_message_from at hyp
    rw [h1] at hyp
    simp only [Prod.mk.injEq, Except.ok.injEq, Prod.mk.injEq,
      AsyncValue.Continue.injEq] at hyp
    obtain ⟨⟨hc', hs1⟩, hlog⟩ := hyp
    obtain ⟨hc0, hs, hsplit⟩ := read_segment_table_first_split buf l1 c0 s h1
    refine ⟨by rw [← hs1, hs], fun l2 => ?_⟩
    rw [read_message_from_congr options (hsplit l2), ← hc', hc0, ← hlog]
    simp [resume_message]

/-- Suspend/resume decomposition of `resume_message`: if resuming on `l1`
suspends again, the source is exhausted, and resuming on the concatenation
agrees with resuming twice (allocation logs concatenate). -/
theorem resume_message_split (c : ReadContinuation) (l1 : List Byte)
    (options : ReaderOptions) (c' : ReadContinuation) (s1 : ByteStream)
    (log : List Alloc)
    (hyp : resume_message c (feed l1) options = (.ok (.Continue c', s1), log)) :
    s1 = [] ∧ ∀ l2, resume_message c (feed (l1 ++ l2)) options =
      ((resume_message c' (feed l2) options).1,
        log ++ (resume_message c' (feed l2) options).2) := by
  cases c with
  | segmentTableFirst buf =>
    exact read_message_from_split options buf l1 c' s1 log hyp
  | segmentTableRest cnt fsl bl buf =>
    unfold resume_message at hyp
    dsimp only at hyp
    rcases h2 : read_segment_table_rest (feed l1) options cnt fsl buf bl with
      e2 | ⟨w | c2, s2⟩
    · rw [h2] at hyp
      simp at hyp
    · obtain ⟨tw, sl⟩ := w
      obtain ⟨r2, hs2, hext2⟩ := read_segment_table_rest_extend options cnt fsl buf l1
        bl (tw, sl) s2 h2
      subst hs2
      rw [h2] at hyp
      simp only [Prod.mk.injEq] at hyp
      obtain ⟨hres, hlog⟩ := hyp
      obtain ⟨hc', hs1, hsplit⟩ := read_segments_split options sl tw [] r2 c' s1 hres
      simp only [List.nil_append] at hc' hsplit
      refine ⟨hs1, fun l2 => ?_⟩
      unfold resume_message
      dsimp only
      rw [hext2 l2]
      dsimp only
      rw [hsplit l2, hc', ← hlog]
      simp [resume_message]
    · rw [h2] at hyp
      simp only [Prod.mk.injEq, Except.ok.injEq, AsyncValue.Continue.injEq] at hyp
      obtain ⟨⟨hc', hs1⟩, hlog⟩ := hyp
      obtain ⟨hc2, hs2, hsplit⟩ := read_segment_table_rest_split options cnt fsl buf l1
        bl c2 s2 h2
      refine ⟨by rw [← hs1, hs2], fun l2 => ?_⟩
      unfold resume_message
      dsimp only
      rw [hsplit l2, ← hc', hc2, ← hlog]
      rcases h3 : read_segment_table_rest (feed l2) options cnt fsl (buf ++ l1) bl with
        e3 | ⟨w3 | c3, s3⟩
      · simp [resume_message, h3]
      · obtain ⟨tw3, sl3⟩ := w3
        simp [resume_message, h3]
      · simp [resume_message, h3]
  | segments sl tw buf =>
    unfold resume_message at hyp
    dsimp only at hyp
    simp only [Prod.mk.injEq] at hyp
    obtain ⟨hres, hlog⟩ := hyp
    obtain ⟨hc', hs1, hsplit⟩ := read_segments_split options sl tw buf l1 c' s1 hres
    refine ⟨hs1, fun l2 => ?_⟩
    unfold resume_message
    dsimp only
    rw [hsplit l2, hc', ← hlog]
    simp [resume_message]

/-- Extension of `resume_message` after completion. -/
theorem resume_message_complete (c : ReadContinuation) (l1 : List Byte)
    (options : ReaderOptions) (m : OwnedSpaceMessageReader) (s1 : ByteStream)
    (log : List Alloc)
    (hyp : resume_message c (feed l1) options = (.ok (.Complete m, s1), log)) :
    ∃ r, s1 = feed r ∧ ∀ l2, resume_message c (feed (l1 ++ l2)) options =
      (.ok (.Complete m, feed (r ++ l2)), log) := by
  cases c with
  | segmentTableFirst buf =>
    exact read_message_from_complete options buf l1 m s1 log hyp
  | segmentTableRest cnt fsl bl buf =>
    unfold resume_message at hyp
    dsimp only at hyp
    rcases h2 : read_segment_table_rest (feed l1) options cnt fsl buf bl with
      e2 | ⟨w | c2, s2⟩
    · rw [h2] at hyp
      simp at hyp
    · obtain ⟨tw, sl⟩ := w
      obtain ⟨r2, hs2, hext2⟩ := read_segment_table_rest_extend options cnt fsl buf l1
        bl (tw, sl) s2 h2
      subst hs2
      rw [h2] at hyp
      simp only [Prod.mk.injEq] at hyp
      obtain ⟨hres, hlog⟩ := hyp
      obtain ⟨r3, hs1, hext3⟩ := read_segments_extend options sl tw [] r2 m s1 hres
      refine ⟨r3, hs1, fun l2 => ?_⟩
      unfold resume_message
      dsimp only
      rw [hext2 l2]
      dsimp only
      rw [hext3 l2, hlog]
    · rw [h2] at hyp
      simp at hyp
  | segments sl tw buf =>
    unfold resume_message at hyp
    dsimp only at hyp
    simp only [Prod.mk.injEq] at hyp
    obtain ⟨hres, hlog⟩ := hyp
    obtain ⟨r3, hs1, hext3⟩ := read_segments_extend options sl tw buf l1 m s1 hres
    refine ⟨r3, hs1, fun l2 => ?_⟩
    unfold resume_message
    dsimp only
    rw [hext3 l2, hlog]

/-- Extension of `resume_message` after an error. -/
theorem resume_message_error (c : ReadContinuation) (l1 : List Byte)
    (options : ReaderOptions) (e : Error) (log : List Alloc)
    (hyp : resume_message c (feed l1) options = (.error e, log)) :
    ∀ l2, resume_message c (feed (l1 ++ l2)) options = (.error e, log) := by
  intro l2
  cases c with
  | segmentTableFirst buf =>
    exact read_message_from_error options buf l1 e log hyp l2
  | segmentTableRest cnt fsl bl buf =>
    unfold resume_message at hyp ⊢
    dsimp only at hyp ⊢
    rcases h2 : read_segment_table_rest (feed l1) options cnt fsl buf bl with
      e2 | ⟨w | c2, s2⟩
    · rw [h2] at hyp
      rw [read_segment_table_rest_error options cnt fsl buf l1 bl e2 h2 l2]
      exact hyp
    · obtain ⟨tw, sl⟩ := w
      obtain ⟨r2, hs2, hext2⟩ := read_segment_table_rest_extend options cnt fsl buf l1
        bl (tw, sl) s2 h2
      subst hs2
      rw [h2] at hyp
      rw [hext2 l2]
      simp only [Prod.mk.injEq] at hyp
      exact absurd hyp.1 (fun hres => read_segments_no_error options sl tw [] r2 e hres)
    · rw [h2] at hyp
      simp at hyp
  | segments sl tw buf =>
    unfold resume_message at hyp
    dsimp only at hyp
    simp only [Prod.mk.injEq] at hyp
    exact absurd hyp.1 (fun hres => read_segments_no_error options sl tw buf l1 e hres)

/-- Reading a message is resumption from the initial (empty) phase-1 state. -/
theorem read_message_eq_resume (s : ByteStream) (options : ReaderOptions) :
    read_message s options = resume_message (.segmentTableFirst []) s options := rfl

/-- The resume loop only appends to an already accumulated allocation log. -/
theorem drive_message_log (options : ReaderOptions) (pre : List Alloc)
    (chunks : List (List Byte)) :
    ∀ (r : Except Error (AsyncRead × ByteStream)) (log : List Alloc),
      drive_message options (r, pre ++ log) chunks =
        ((drive_message options (r, log) chunks).1,
          pre ++ (drive_message options (r, log) chunks).2) := by
  induction chunks with
  | nil =>
    intro r log
    match r with
    | .error e => rfl
    | .ok (.Complete m, s) => rfl
    | .ok (.Continue c, s) => rfl
  | cons ch rest ih =>
    intro r log
    match r with
    | .error e => rfl
    | .ok (.Complete m, s) => rfl
    | .ok (.Continue c, s) =>
      show drive_message options
          ((resume_message c (feed ch) options).1,
            (pre ++ log) ++ (resume_message c (feed ch) options).2) rest = _
      rw [List.append_assoc]
      exact ih _ _

/-- Driving the resume loop over any chunking of the remaining input agrees
with resuming once on all of it (up to the final stream position). -/
theorem drive_message_join (options : ReaderOptions) (chunks : List (List Byte)) :
    ∀ (c : ReadContinuation) (l : List Byte),
      obsOf (drive_message options (resume_message c (feed l) options) chunks) =
        obsOf (resume_message c (feed (l ++ chunks.flatten)) options) := by
  induction chunks with
  | nil =>
    intro c l
    rcases hr : resume_message c (feed l) options with ⟨res, log⟩
    have h1 : drive_message options (res, log) [] = (res, log) := by
      match res with
      | .error e => rfl
      | .ok (.Complete m, s) => rfl
      | .ok (.Continue c, s) => rfl
    rw [h1, List.flatten_nil, List.append_nil, hr]
  | cons ch rest ih =>
    intro c l
    rcases hr : resume_message c (feed l) options with ⟨res, log⟩
    have hflat : (ch :: rest).flatten = ch ++ rest.flatten := rfl
    rw [hflat, ← List.append_assoc]
    match res with
    | .error e =>
      have hwhole := resume_message_error c l options e log hr (ch ++ rest.flatten)
      rw [← List.append_assoc] at hwhole
      rw [hwhole]
      rfl
    | .ok (.Complete m, s) =>
      obtain ⟨r2, -, hext⟩ := resume_message_complete c l options m s log hr
      have hwhole := hext (ch ++ rest.flatten)
      rw [← List.append_assoc] at hwhole
      rw [hwhole]
      rfl
    | .ok (.Continue c2, s) =>
      obtain ⟨-, hsplit⟩ := resume_message_split c l options c2 s log hr
      have hwhole := hsplit (ch ++ rest.flatten)
      rw [← List.append_assoc] at hwhole
      rw [hwhole]
      have hstep : drive_message options (.ok (.Continue c2, s), log) (ch :: rest) =
          drive_message options ((resume_message c2 (feed ch) options).1,
            log ++ (resume_message c2 (feed ch) options).2) rest := rfl
      rw [hstep, drive_message_log options log rest]
      have hih := ih c2 ch
      unfold obsOf at hih ⊢
      simp only [Prod.mk.injEq] at hih ⊢
      exact ⟨hih.1, by rw [hih.2]⟩

/-- Chunked decoding agrees with one-pass decoding of the concatenated input
(up to the final stream position). -/
theorem read_message_chunked_join (options : ReaderOptions)
    (chunks : List (List Byte)) :
    obsOf (read_message_chunked options chunks) =
      obsOf (read_message (feed chunks.flatten) options) := by
  cases chunks with
  | nil => rfl
  | cons ch rest =>
    have h1 : read_message_chunked options (ch :: rest) =
        drive_message options (read_message (feed ch) options) rest := rfl
    rw [h1, read_message_eq_resume (feed ch), read_message_eq_resume,
      drive_message_join]
    rfl

/-! ## Wire-format arithmetic and list lemmas for the round trip -/

/-- Reading back a little-endian encoding recovers the value modulo `2^32`. -/
theorem read_u32_le_u32le (n : Nat) : read_u32_le (u32le n) = n % 4294967296 := by
  simp only [read_u32_le, u32le, List.headD_cons, List.getD_cons_succ, List.getD_cons_zero]
  omega

/-- Reading back the encoding of a 32-bit value is the identity. -/
theorem map_read_u32_le_u32le (xs : List Nat) (h : ∀ x ∈ xs, x < 4294967296) :
    (xs.map u32le).map read_u32_le = xs := by
  induction xs with
  | nil => rfl
  | cons x rest ih =>
    have hx : x < 4294967296 := h x (by simp)
    simp only [List.map_cons, read_u32_le_u32le, Nat.mod_eq_of_lt hx]
    rw [ih fun y hy => h y (by simp [hy])]

/-- The fuel argument of `chunksOfGo` is irrelevant once it dominates the
length. -/
theorem chunksOfGo_congr (n : Nat) : ∀ (f1 : Nat) (l : List Byte) (f2 : Nat),
    l.length ≤ f1 → l.length ≤ f2 →
    chunksOfGo (n + 1) f1 l = chunksOfGo (n + 1) f2 l := by
  intro f1
  induction f1 with
  | zero =>
    intro l f2 h1 h2
    have : l = [] := List.eq_nil_of_length_eq_zero (by omega)
    subst this
    cases f2 <;> rfl
  | succ f1 ih =>
    intro l f2 h1 h2
    cases l with
    | nil => cases f2 <;> rfl
    | cons x xs =>
      cases f2 with
      | zero => simp at h2
      | succ f2 =>
        show ((x :: xs).take (n + 1)) :: chunksOfGo (n + 1) f1 ((x :: xs).drop (n + 1)) =
          ((x :: xs).take (n + 1)) :: chunksOfGo (n + 1) f2 ((x :: xs).drop (n + 1))
        have hlen : ((x :: xs).drop (n + 1)).length = xs.length - n := by
          simp [List.length_drop]
        rw [ih ((x :: xs).drop (n + 1)) f2 (by simp at h1; omega) (by simp at h2; omega)]

/-- Unfolding equation of `chunksOf` on a nonempty list. -/
theorem chunksOf_cons (n : Nat) (x : Byte) (xs : List Byte) :
    chunksOf (n + 1) (x :: xs) =
      ((x :: xs).take (n + 1)) :: chunksOf (n + 1) ((x :: xs).drop (n + 1)) := by
  show chunksOfGo (n + 1) (xs.length + 1) (x :: xs) = _
  show ((x :: xs).take (n + 1)) :: chunksOfGo (n + 1) xs.length ((x :: xs).drop (n + 1)) = _
  rw [chunksOfGo_congr n xs.length ((x :: xs).drop (n + 1))
    ((x :: xs).drop (n + 1)).length (by simp) (le_refl _)]
  rfl

/-- Unfolding equation of `chunksOf` on a nonempty list, by emptiness. -/
theorem chunksOf_eq (n : Nat) (l : List Byte) (hne : l ≠ []) :
    chunksOf (n + 1) l = (l.take (n + 1)) :: chunksOf (n + 1) (l.drop (n + 1)) := by
  cases l with
  | nil => exact absurd rfl hne
  | cons x xs => exact chunksOf_cons n x xs

/-- Splitting a list of full chunks off the front of `chunksOf`. -/
theorem chunksOf_flatten_append (n : Nat) (es : List (List Byte)) (rest : List Byte)
    (h : ∀ e ∈ es, e.length = n + 1) :
    chunksOf (n + 1) (es.flatten ++ rest) = es ++ chunksOf (n + 1) rest := by
  induction es with
  | nil => simp
  | cons e es ih =>
    have he : e.length = n + 1 := h e (by simp)
    have hne : e ++ (es.flatten ++ rest) ≠ [] := by
      intro hc
      have := congrArg List.length hc
      simp [he] at this
    simp only [List.flatten_cons, List.append_assoc]
    rw [chunksOf_eq n (e ++ (es.flatten ++ rest)) hne,
      List.take_append_of_le_length (by omega), List.take_of_length_le (by omega),
      List.drop_append_of_le_length (by omega), List.drop_eq_nil_of_le (by omega),
      List.nil_append, ih (fun y hy => h y (by simp [hy]))]
    simp

/-- Regrouping a flattened list of full words recovers the words. -/
theorem chunksOf_flatten (n : Nat) (es : List (List Byte))
    (h : ∀ e ∈ es, e.length = n + 1) :
    chunksOf (n + 1) es.flatten = es := by
  have h1 := chunksOf_flatten_append n es [] h
  rw [List.append_nil] at h1
  have h2 : chunksOf (n + 1) ([] : List Byte) = [] := rfl
  rw [h2, List.append_nil] at h1
  exact h1

/-- Generalized closed form of the slice-building fold. -/
theorem build_segment_slices_fold (entries : List (List Byte)) :
    ∀ (t : Nat) (ss : List (Nat × Nat)),
      entries.foldl
        (fun acc chunk =>
          let segment_len := read_u32_le chunk
          (acc.1 + segment_len, acc.2 ++ [(acc.1, acc.1 + segment_len)]))
        (t, ss) =
      (t + (entries.map read_u32_le).sum,
        ss ++ slicesFrom t (entries.map read_u32_le)) := by
  induction entries with
  | nil => intro t ss; simp [slicesFrom]
  | cons e rest ih =>
    intro t ss
    simp only [List.foldl_cons, List.map_cons, List.sum_cons, slicesFrom]
    rw [ih (t + read_u32_le e) (ss ++ [(t, t + read_u32_le e)])]
    simp [Nat.add_assoc]

/-- Closed form of `build_segment_slices`: the decoded lengths, turned into
consecutive slices starting at 0, with the accumulated total. -/
theorem build_segment_slices_eq (first_segment_len : Nat) (entries : List (List Byte)) :
    build_segment_slices first_segment_len entries =
      (first_segment_len + (entries.map read_u32_le).sum,
        slicesFrom 0 (first_segment_len :: entries.map read_u32_le)) := by
  unfold build_segment_slices
  rw [build_segment_slices_fold entries first_segment_len [(0, first_segment_len)]]
  simp [slicesFrom]

/-- Indexing the consecutive-slice list: slice `i` runs between the partial
sums of the lengths. -/
theorem slicesFrom_get? (lens : List Nat) : ∀ (start i : Nat), i < lens.length →
    (slicesFrom start lens).get? i =
      some (start + (lens.take i).sum, start + (lens.take (i + 1)).sum) := by
  induction lens with
  | nil => intro start i h; simp at h
  | cons len rest ih =>
    intro start i h
    cases i with
    | zero => simp [slicesFrom]
    | succ i =>
      have h2 : i < rest.length := by simp at h; omega
      simp only [slicesFrom, List.get?_cons_succ, ih (start + len) i h2, List.take_succ_cons,
        List.sum_cons]
      rw [Nat.add_assoc, Nat.add_assoc]

/-- Extracting segment `i` from the flattened word buffer by its slice. -/
theorem flatten_extract (segs : List (List (List Byte))) :
    ∀ (i : Nat) (h : i < segs.length),
      ((segs.flatten.drop (((segs.map List.length).take i).sum)).take segs[i].length) =
        segs[i] := by
  induction segs with
  | nil => intro i h; simp at h
  | cons s rest ih =>
    intro i h
    cases i with
    | zero =>
      simp only [List.getElem_cons_zero, List.take_zero, List.sum_nil, List.drop_zero,
        List.map_cons, List.flatten_cons]
      rw [List.take_append_of_le_length (le_refl _), List.take_length]
    | succ i =>
      have h2 : i < rest.length := by simp at h; omega
      simp only [List.getElem_cons_succ, List.map_cons, List.take_succ_cons, List.sum_cons,
        List.flatten_cons]
      rw [List.drop_append, ih i h2]

/-- Flattening bytes of segments in two steps or one. -/
theorem flatten_map_flatten (segs : List (List (List Byte))) :
    (segs.map List.flatten).flatten = segs.flatten.flatten := by
  induction segs with
  | nil => rfl
  | cons s rest ih => simp [ih]

/-- The byte length of a list of 8-byte words. -/
theorem flatten_words_length (ws : List (List Byte)) (h : ∀ w ∈ ws, w.length = 8) :
    ws.flatten.length = ws.length * 8 := by
  induction ws with
  | nil => rfl
  | cons w rest ih =>
    simp only [List.flatten_cons, List.length_append, List.length_cons,
      h w (by simp), ih fun y hy => h y (by simp [hy])]
    ring

/-- The byte length of the whole segment payload. -/
theorem body_length (segs : List (List (List Byte)))
    (h : ∀ seg ∈ segs, ∀ w ∈ seg, w.length = 8) :
    (segs.map List.flatten).flatten.length = (segs.map List.length).sum * 8 := by
  induction segs with
  | nil => rfl
  | cons s rest ih =>
    simp only [List.map_cons, List.flatten_cons, List.length_append, List.sum_cons]
    rw [flatten_words_length s (h s (by simp)), ih fun seg hseg => h seg (by simp [hseg])]
    ring

/-- The byte length of the flattened little-endian length entries. -/
theorem flatten_u32le_length (xs : List Nat) :
    ((xs.map u32le).flatten).length = 4 * xs.length := by
  induction xs with
  | nil => rfl
  | cons x rest ih => simp [u32le, ih]; ring

/-- Parsing the first table word of a well-formed encoding. -/
theorem parse_first_of_encoded (cnt1 l0 : Nat) (h1 : cnt1 < 511) (h0 : l0 < 4294967296) :
    parse_segment_table_first (u32le cnt1 ++ u32le l0) = .ok (cnt1 + 1, l0) := by
  have hlen : (u32le cnt1).length = 4 := rfl
  have ht4 : (u32le cnt1 ++ u32le l0).take 4 = u32le cnt1 := by
    rw [List.take_append_of_le_length (by rw [hlen]), List.take_of_length_le (by rw [hlen])]
  have hd4 : (u32le cnt1 ++ u32le l0).drop 4 = u32le l0 := by
    rw [List.drop_append_of_le_length (by rw [hlen]), List.drop_eq_nil_of_le (by rw [hlen]),
      List.nil_append]
  have ht44 : (u32le l0).take 4 = u32le l0 := List.take_of_length_le (by simp [u32le])
  unfold parse_segment_table_first
  rw [ht4, hd4, ht44, read_u32_le_u32le, read_u32_le_u32le, Nat.mod_eq_of_lt h0,
    Nat.mod_eq_of_lt (by omega), Nat.mod_eq_of_lt (by omega), if_neg (by omega),
    if_neg (by omega)]

/-- Parsing the remaining table entries of a well-formed encoding: the decoded
lengths become consecutive slices, trailing padding is ignored, and the limit
check passes when the total is within bounds. -/
theorem parse_rest_of_encoded (options : ReaderOptions) (cnt fsl : Nat)
    (restLens : List Nat) (pad : List Byte)
    (hlens : ∀ x ∈ restLens, x < 4294967296) (hcnt : cnt - 1 = restLens.length)
    (hlimit : fsl + restLens.sum ≤ options.traversal_limit_in_words) :
    parse_segment_table_rest options cnt fsl ((restLens.map u32le).flatten ++ pad) =
      .ok (fsl + restLens.sum, slicesFrom 0 (fsl :: restLens)) := by
  have hchunks : chunksOf 4 ((restLens.map u32le).flatten ++ pad) =
      restLens.map u32le ++ chunksOf 4 pad := by
    exact chunksOf_flatten_append 3 (restLens.map u32le) pad (by
      intro e he
      simp only [List.mem_map] at he
      obtain ⟨x, -, hx⟩ := he
      rw [← hx]
      rfl)
  have htake : (restLens.map u32le ++ chunksOf 4 pad).take (cnt - 1) =
      restLens.map u32le := by
    rw [hcnt, ← List.length_map restLens u32le, List.take_left]
  unfold parse_segment_table_rest
  rw [hchunks, htake, build_segment_slices_eq, map_read_u32_le_u32le restLens hlens]
  rw [if_neg (by omega)]

/-- Phase 1 on a well-formed encoded message: completes with the count and the
first length, leaving the rest of the table and the body buffered. -/
theorem phase1_of_encoded (cnt1 l0 : Nat) (tail : List Byte)
    (h1 : cnt1 < 511) (h0 : l0 < 4294967296) :
    read_segment_table_first (feed ((u32le cnt1 ++ u32le l0) ++ tail)) [] =
      .ok (.Complete (cnt1 + 1, l0), feed tail) := by
  have hhead : ((u32le cnt1 ++ u32le l0) : List Byte).length = 8 := rfl
  rw [read_segment_table_first_fills [] ((u32le cnt1 ++ u32le l0) ++ tail)
    (by simp only [List.length_nil, List.length_append, hhead]; omega)]
  simp only [List.length_nil, Nat.sub_zero, List.nil_append]
  rw [← hhead, List.take_left, List.drop_left,
    parse_first_of_encoded cnt1 l0 h1 h0]

/-- Phase 2 on the remainder of a well-formed encoded message: completes with
the total and the consecutive slices, leaving the body buffered. -/
theorem phase2_of_encoded (options : ReaderOptions) (cnt fsl : Nat)
    (restLens : List Nat) (pad body : List Byte)
    (hlens : ∀ x ∈ restLens, x < 4294967296) (hcnt : cnt - 1 = restLens.length)
    (hbuf : ((restLens.map u32le).flatten ++ pad).length = create_segment_table_buf cnt)
    (hlimit : fsl + restLens.sum ≤ options.traversal_limit_in_words) :
    read_segment_table_rest (feed (((restLens.map u32le).flatten ++ pad) ++ body))
        options cnt fsl [] (create_segment_table_buf cnt) =
      .ok (.Complete (fsl + restLens.sum, slicesFrom 0 (fsl :: restLens)), feed body) := by
  rw [read_segment_table_rest_fills options cnt fsl []
    (((restLens.map u32le).flatten ++ pad) ++ body) (create_segment_table_buf cnt)
    (by simp only [List.length_nil, List.length_append, Nat.zero_add, ← hbuf]; omega)]
  simp only [List.length_nil, Nat.sub_zero, List.nil_append]
  rw [← hbuf, List.take_left, List.drop_left,
    parse_rest_of_encoded options cnt fsl restLens pad hlens hcnt hlimit]

/-- Phase 3 on the body of a well-formed encoded message: completes with the
regrouped words, consuming everything. -/
theorem phase3_of_encoded (options : ReaderOptions)
    (segment_slices : List (Nat × Nat)) (total_words : Nat) (ws : List (List Byte))
    (hwords : ∀ w ∈ ws, w.length = 8) (htw : total_words = ws.length) :
    read_segments (feed ws.flatten) options segment_slices total_words [] =
      .ok (.Complete ⟨options, segment_slices, ws⟩, []) := by
  subst htw
  have hlen : ws.flatten.length = ws.length * 8 := flatten_words_length ws hwords
  rw [read_segments_fills options segment_slices ws.length [] ws.flatten (by omega)]
  simp only [List.length_nil, Nat.sub_zero, List.nil_append]
  rw [List.take_of_length_le (by omega), List.drop_eq_nil_of_le (by omega),
    chunksOf_flatten 7 ws hwords]
  rfl

/-- One-pass round trip: reading back the wire encoding of a well-formed
segment list yields the completed message (options, consecutive slices, the
original words), consuming the whole input, with the expected allocations. -/
theorem round_trip_one_pass (options : ReaderOptions)
    (segments : List (List (List Byte))) (hne : segments ≠ [])
    (hcnt : segments.length < 512)
    (hlens : ∀ seg ∈ segments, seg.length < 4294967296)
    (hwords : ∀ seg ∈ segments, ∀ w ∈ seg, w.length = 8)
    (hlimit : (segments.map List.length).sum ≤ options.traversal_limit_in_words) :
    read_message (feed (encode_message segments)) options =
      (.ok (.Complete
          ⟨options, slicesFrom 0 (segments.map List.length), segments.flatten⟩, []),
        (if segments.length = 1 then []
         else [.tableBuf (create_segment_table_buf segments.length)]) ++
          [.wordBuf ((segments.map List.length).sum)]) := by
  match segments, hne with
  | seg0 :: restSegs, _ =>
  have hl0 : seg0.length < 4294967296 := hlens seg0 (by simp)
  have hbytes : encode_message (seg0 :: restSegs) =
      (u32le restSegs.length ++ u32le seg0.length) ++
        ((((restSegs.map List.length).map u32le).flatten ++
            (if (restSegs.length + 1) % 2 = 0 then [0, 0, 0, 0] else [])) ++
          ((seg0 :: restSegs).map List.flatten).flatten) := by
    simp [encode_message, encode_seg_table, List.append_assoc]
  have hwflat : ∀ w ∈ (seg0 :: restSegs).flatten, w.length = 8 := by
    intro w hw
    rw [List.mem_flatten] at hw
    obtain ⟨seg, hseg, hwseg⟩ := hw
    exact hwords seg hseg w hwseg
  have hbodyflat : ((seg0 :: restSegs).map List.flatten).flatten =
      ((seg0 :: restSegs).flatten).flatten := flatten_map_flatten (seg0 :: restSegs)
  show read_message_from (feed (encode_message (seg0 :: restSegs))) options [] = _
  rw [hbytes]
  unfold read_message_from
  rw [phase1_of_encoded restSegs.length seg0.length _ (by simp at hcnt; omega) hl0]
  dsimp only
  cases restSegs with
  | nil =>
    norm_num
    rw [phase3_of_encoded options [(0, seg0.length)] seg0.length seg0
      (hwords seg0 (by simp)) (by simp)]
    simp [slicesFrom]
  | cons s1 srest =>
    rw [if_neg (show ¬((s1 :: srest).length + 1 = 1) by simp)]
    have hbuf : ((((s1 :: srest).map List.length).map u32le).flatten ++
        (if ((s1 :: srest).length + 1) % 2 = 0 then ([0, 0, 0, 0] : List Byte)
         else [])).length =
        create_segment_table_buf ((s1 :: srest).length + 1) := by
      rw [List.length_append, flatten_u32le_length, List.length_map]
      unfold create_segment_table_buf
      by_cases hpar : ((s1 :: srest).length + 1) % 2 = 0
      · rw [if_pos hpar]
        simp only [List.length_cons, List.length_nil] at hpar ⊢
        omega
      · rw [if_neg hpar]
        simp only [List.length_cons, List.length_nil] at hpar ⊢
        omega
    have hlensR : ∀ x ∈ (s1 :: srest).map List.length, x < 4294967296 := by
      intro x hx
      rw [List.mem_map] at hx
      obtain ⟨seg, hseg, hxe⟩ := hx
      rw [← hxe]
      exact hlens seg (by simp [hseg])
    have hlimit2 : seg0.length + ((s1 :: srest).map List.length).sum ≤
        options.traversal_limit_in_words := by
      simpa using hlimit
    rw [phase2_of_encoded options ((s1 :: srest).length + 1) seg0.length
      ((s1 :: srest).map List.length) _ _ hlensR (by simp) hbuf hlimit2]
    dsimp only
    rw [hbodyflat]
    rw [phase3_of_encoded options
      (slicesFrom 0 (seg0.length :: (s1 :: srest).map List.length))
      (seg0.length + ((s1 :: srest).map List.length).sum)
      ((seg0 :: s1 :: srest).flatten) hwflat
      (by rw [List.length_flatten]; simp)]
    simp

/-- Reading a segment back from the finished message recovers it: the
consecutive slices address the flattened segments correctly. -/
theorem get_segment_of_message (options : ReaderOptions)
    (segs : List (List (List Byte))) (i : Nat) (h : i < segs.length) :
    (OwnedSpaceMessageReader.mk options (slicesFrom 0 (segs.map List.length))
      segs.flatten).get_segment i = segs[i] := by
  have hlen : i < (segs.map List.length).length := by simp [h]
  unfold OwnedSpaceMessageReader.get_segment
  dsimp only
  rw [slicesFrom_get? (segs.map List.length) 0 i hlen]
  have hsum : ((segs.map List.length).take (i + 1)).sum =
      ((segs.map List.length).take i).sum + segs[i].length := by
    rw [List.sum_take_succ (segs.map List.length) i hlen, List.getElem_map]
  simp only [Nat.zero_add]
  rw [hsum, Nat.add_sub_cancel_left]
  exact flatten_extract segs i h

/-- Taking the first `k` chunks only looks at the first `4 * k` bytes. -/
theorem take_chunksOf (k : Nat) : ∀ (buf : List Byte), 4 * k ≤ buf.length →
    (chunksOf 4 buf).take k = chunksOf 4 (buf.take (4 * k)) := by
  induction k with
  | zero =>
    intro buf h
    rw [Nat.mul_zero, List.take_zero, List.take_zero]
    rfl
  | succ k ih =>
    intro buf h
    have hne : buf ≠ [] := by
      intro hc
      subst hc
      simp only [List.length_nil] at h
      omega
    have hne2 : buf.take (4 * (k + 1)) ≠ [] := by
      intro hc
      have := congrArg List.length hc
      simp only [List.length_take, List.length_nil] at this
      omega
    rw [chunksOf_eq 3 buf hne, chunksOf_eq 3 (buf.take (4 * (k + 1))) hne2,
      List.take_succ_cons, List.take_take, List.drop_take,
      ih (buf.drop 4) (by simp [List.length_drop]; omega)]
    have h1 : (4 : Nat) ⊓ (4 * (k + 1)) = 4 := by omega
    have h2 : 4 * (k + 1) - 4 = 4 * k := by omega
    rw [h1, h2]

/-- Phase 2 with an already full buffer: no reading happens, the buffer is
parsed directly. -/
theorem read_segment_table_rest_full (s : ByteStream) (options : ReaderOptions)
    (segment_count first_segment_len : Nat) (buf : List Byte) :
    read_segment_table_rest s options segment_count first_segment_len buf buf.length =
      (match parse_segment_table_rest options segment_count first_segment_len buf with
       | .error e => .error e
       | .ok v => .ok (.Complete v, s)) := by
  unfold read_segment_table_rest
  rw [Nat.sub_self, async_read_all_zero]
  dsimp only
  rw [List.append_nil, if_neg (lt_irrefl buf.length)]

/-- The phase-2 parse only depends on the first `segment_count - 1` 4-byte
entries of the buffer; trailing padding is ignored regardless of content. -/
theorem parse_segment_table_rest_padding (options : ReaderOptions)
    (segment_count first_segment_len : Nat) (buf1 buf2 : List Byte)
    (hlen : 4 * (segment_count - 1) ≤ buf1.length)
    (hlen2 : 4 * (segment_count - 1) ≤ buf2.length)
    (hpre : buf1.take (4 * (segment_count - 1)) = buf2.take (4 * (segment_count - 1))) :
    parse_segment_table_rest options segment_count first_segment_len buf1 =
      parse_segment_table_rest options segment_count first_segment_len buf2 := by
  unfold parse_segment_table_rest
  rw [take_chunksOf (segment_count - 1) buf1 hlen,
    take_chunksOf (segment_count - 1) buf2 hlen2, hpre]

/-- The encoded remainder table (entries plus parity padding) has exactly the
length of the buffer `create_segment_table_buf` allocates. -/
theorem encoded_table_len (restLens : List Nat) :
    ((restLens.map u32le).flatten ++
      (if (restLens.length + 1) % 2 = 0 then ([0, 0, 0, 0] : List Byte) else [])).length =
      create_segment_table_buf (restLens.length + 1) := by
  rw [List.length_append, flatten_u32le_length]
  unfold create_segment_table_buf
  by_cases hpar : (restLens.length + 1) % 2 = 0
  · rw [if_pos hpar]
    simp only [List.length_cons, List.length_nil]
    omega
  · rw [if_neg hpar]
    simp only [List.length_nil]
    omega

/-- Parsing the remaining table entries of a well-formed encoding when the
total exceeds the traversal limit: the decode error fires. -/
theorem parse_rest_of_encoded_over (options : ReaderOptions) (cnt fsl : Nat)
    (restLens : List Nat) (pad : List Byte)
    (hlens : ∀ x ∈ restLens, x < 4294967296) (hcnt : cnt - 1 = restLens.length)
    (hover : options.traversal_limit_in_words < fsl + restLens.sum) :
    parse_segment_table_rest options cnt fsl ((restLens.map u32le).flatten ++ pad) =
      .error (.decode
        "Message is too large. To increase the limit on the receiving end, see capnp::ReaderOptions."
        (some (toString (fsl + restLens.sum)))) := by
  have hchunks : chunksOf 4 ((restLens.map u32le).flatten ++ pad) =
      restLens.map u32le ++ chunksOf 4 pad := by
    exact chunksOf_flatten_append 3 (restLens.map u32le) pad (by
      intro e he
      simp only [List.mem_map] at he
      obtain ⟨x, -, hx⟩ := he
      rw [← hx]
      rfl)
  have htake : (restLens.map u32le ++ chunksOf 4 pad).take (cnt - 1) =
      restLens.map u32le := by
    rw [hcnt, ← List.length_map restLens u32le, List.take_left]
  unfold parse_segment_table_rest
  rw [hchunks, htake, build_segment_slices_eq, map_read_u32_le_u32le restLens hlens]
  rw [if_pos (by omega)]

/-- Phase 2 on an over-limit encoded table: fails with the too-large decode
error, whatever bytes follow the table. -/
theorem phase2_of_encoded_over (options : ReaderOptions) (cnt fsl : Nat)
    (restLens : List Nat) (pad junk : List Byte)
    (hlens : ∀ x ∈ restLens, x < 4294967296) (hcnt : cnt - 1 = restLens.length)
    (hbuf : ((restLens.map u32le).flatten ++ pad).length = create_segment_table_buf cnt)
    (hover : options.traversal_limit_in_words < fsl + restLens.sum) :
    read_segment_table_rest (feed (((restLens.map u32le).flatten ++ pad) ++ junk))
        options cnt fsl [] (create_segment_table_buf cnt) =
      .error (.decode
        "Message is too large. To increase the limit on the receiving end, see capnp::ReaderOptions."
        (some (toString (fsl + restLens.sum)))) := by
  rw [read_segment_table_rest_fills options cnt fsl []
    (((restLens.map u32le).flatten ++ pad) ++ junk) (create_segment_table_buf cnt)
    (by simp only [List.length_nil, List.length_append, Nat.zero_add, ← hbuf]; omega)]
  simp only [List.length_nil, Nat.sub_zero, List.nil_append]
  rw [← hbuf, List.take_left,
    parse_rest_of_encoded_over options cnt fsl restLens pad hlens hcnt hover]

/-- Flattening single-byte chunks recovers the byte list. -/
theorem flatten_singletons (l : List Byte) : (l.map fun b => [b]).flatten = l := by
  induction l with
  | nil => rfl
  | cons x xs ih => simp [ih]

/-! ## The claims -/

/-- C2: phase 1 computes `segment_count` as the little-endian u32 of bytes 0-3
plus one with mod-`2^32` wraparound, and fails with a decode error exactly for
`segment_count = 0` ("Too few segments.", reachable only via a stored
`0xFFFFFFFF`) or `segment_count ≥ 512` ("Too many segments."); a stored count
field of 510 (count 511) succeeds and 511 (count 512) fails. -/
theorem C2_segment_count_validation :
    (∀ (s : ByteStream) (p : List Byte), p.length = 8 →
      read_segment_table_first s p =
        (if 512 ≤ (read_u32_le (p.take 4) + 1) % 4294967296 then
           .error (.decode "Too many segments."
             (some (toString ((read_u32_le (p.take 4) + 1) % 4294967296))))
         else if (read_u32_le (p.take 4) + 1) % 4294967296 = 0 then
           .error (.decode "Too few segments."
             (some (toString ((read_u32_le (p.take 4) + 1) % 4294967296))))
         else .ok (.Complete ((read_u32_le (p.take 4) + 1) % 4294967296,
           read_u32_le ((p.drop 4).take 4)), s))) ∧
    (∀ (b : List Byte), b.length = 4 →
      ((read_u32_le b + 1) % 4294967296 = 0 ↔ read_u32_le b = 4294967295)) ∧
    read_segment_table_first (feed [254, 1, 0, 0, 0, 0, 0, 0]) [] =
      .ok (.Complete (511, 0), []) ∧
    read_segment_table_first (feed [255, 1, 0, 0, 0, 0, 0, 0]) [] =
      .error (.decode "Too many segments." (some "512")) ∧
    read_segment_table_first (feed [255, 255, 255, 255, 0, 0, 0, 0]) [] =
      .error (.decode "Too few segments." (some "0")) := by
  refine ⟨?_, ?_, by decide, by decide, by decide⟩
  · intro s p hp
    have hcap : 8 - p.length = 0 := by omega
    unfold read_segment_table_first parse_segment_table_first
    rw [hcap, async_read_all_zero]
    dsimp only
    rw [List.append_nil, if_neg (by omega : ¬ p.length < 8)]
    split_ifs <;> rfl
  · intro b hb
    have hlt : read_u32_le b < 4294967296 := by
      unfold read_u32_le
      omega
    omega

/-- C2 witness: the general phase-1 characterization applied to the concrete
full buffer `[254, 1, 0, 0, 0, 0, 0, 0]` on an empty stream. -/
theorem C2_segment_count_validation_witness :
    read_segment_table_first [] [254, 1, 0, 0, 0, 0, 0, 0] =
      .ok (.Complete (511, 0), []) ∧
    ((read_u32_le [255, 255, 255, 255] + 1) % 4294967296 = 0 ↔
      read_u32_le [255, 255, 255, 255] = 4294967295) := by
  constructor
  · rw [C2_segment_count_validation.1 [] [254, 1, 0, 0, 0, 0, 0, 0] (by decide)]
    decide
  · exact C2_segment_count_validation.2.1 [255, 255, 255, 255] (by decide)

/-- C6: the non-blocking drain: a zero-byte read with the buffer not yet full
fails with `PrematureEof`; `WouldBlock` returns normally with the bytes so far;
`Interrupted` retries immediately without counting bytes or suspending; any
other error propagates unchanged. -/
theorem C6_async_read_all_behavior :
    (∀ (s : ByteStream) (cap : Nat),
      async_read_all (.bytes [] :: s) (cap + 1) = .error .prematureEof) ∧
    (∀ (s : ByteStream) (cap : Nat),
      async_read_all (.wouldBlock :: s) (cap + 1) = .ok ([], s)) ∧
    (∀ (s : ByteStream) (cap : Nat),
      async_read_all (.interrupted :: s) (cap + 1) = async_read_all s (cap + 1)) ∧
    (∀ (s : ByteStream) (cap e : Nat),
      async_read_all (.ioError e :: s) (cap + 1) = .error (.other e)) :=
  ⟨fun _ _ => rfl, fun _ _ => rfl, fun _ _ => rfl, fun _ _ _ => rfl⟩

/-- C8: extracting the wrong variant of an `AsyncValue` panics (modelled as
`none`), and extracting the matching variant returns the contained value. -/
theorem C8_unwrap_wrong_variant :
    ∀ (T U : Type) (t : T) (u : U),
      (AsyncValue.Continue u : AsyncValue T U).unwrap = none ∧
      (AsyncValue.Complete t : AsyncValue T U).unwrap = some t ∧
      (AsyncValue.Complete t : AsyncValue T U).unwrap_continuation = none ∧
      (AsyncValue.Continue u : AsyncValue T U).unwrap_continuation = some u :=
  fun _ _ _ _ => ⟨rfl, rfl, rfl, rfl⟩

/-- C9: `text::Builder::new` with starting position 0 returns `Ok` for every
byte slice without any UTF-8 validation; with a nonzero position it validates,
failing with "Text contains non-utf8 data." exactly on invalid UTF-8. -/
theorem C9_text_builder_utf8_gate :
    ∀ (bytes : List Byte) (pos : Nat),
      TextBuilder.new bytes 0 = .ok ⟨bytes, 0⟩ ∧
      (pos ≠ 0 → TextBuilder.new bytes pos =
        (if validUtf8 bytes then .ok ⟨bytes, pos⟩
         else .error (.decode "Text contains non-utf8 data." none))) := by
  intro bytes pos
  constructor
  · unfold TextBuilder.new
    rw [if_neg (by omega)]
  · intro hpos
    unfold TextBuilder.new
    rw [if_pos hpos]

/-- C9 witness: the byte `0xFF` is not valid UTF-8, yet `new` at position 0
accepts it; at position 1 it is rejected. -/
theorem C9_text_builder_utf8_gate_witness :
    validUtf8 [255] = false ∧
    TextBuilder.new [255] 0 = .ok ⟨[255], 0⟩ ∧
    TextBuilder.new [255] 1 = .error (.decode "Text contains non-utf8 data." none) := by
  refine ⟨by decide, (C9_text_builder_utf8_gate [255] 1).1, ?_⟩
  rw [(C9_text_builder_utf8_gate [255] 1).2 (by decide)]
  decide

/-- C10: a message declaring zero total words never reads segment-body bytes:
`read_segments` on an empty word buffer completes immediately on any stream
(even one at end of stream), and a whole single-segment zero-length message
decodes to `Complete` with the end-of-stream event still unconsumed. -/
theorem C10_zero_total_words :
    (∀ (s : ByteStream) (options : ReaderOptions)
       (segment_slices : List (Nat × Nat)),
      read_segments s options segment_slices 0 [] =
        .ok (.Complete ⟨options, segment_slices, []⟩, s)) ∧
    read_message [.bytes [0, 0, 0, 0, 0, 0, 0, 0], .bytes []] ⟨8388608⟩ =
      (.ok (.Complete ⟨⟨8388608⟩, [(0, 0)], []⟩, [.bytes []]), [.wordBuf 0]) := by
  constructor
  · intro s options segment_slices
    unfold read_segments
    rw [show (0 * 8 - ([] : List Byte).length) = 0 from rfl, async_read_all_zero]
    rfl
  · decide

/-- C5: when phase 2 completes (full buffer), the slice list starts with
`(0, first_segment_len)`, each subsequent slice starts where the previous one
ended and spans the little-endian u32 decoded from the corresponding entry,
the total is the sum of all lengths, only `segment_count - 1` entries are
interpreted (trailing padding bytes are ignored regardless of content), and the
two concrete tables from the spec decode as stated. -/
theorem C5_segment_slices :
    (∀ (first_segment_len : Nat) (entries : List (List Byte)),
      build_segment_slices first_segment_len entries =
        (first_segment_len + (entries.map read_u32_le).sum,
          slicesFrom 0 (first_segment_len :: entries.map read_u32_le))) ∧
    (∀ (s : ByteStream) (options : ReaderOptions)
       (segment_count first_segment_len : Nat) (buf : List Byte),
      read_segment_table_rest s options segment_count first_segment_len buf
          buf.length =
        (match parse_segment_table_rest options segment_count first_segment_len buf with
         | .error e => .error e
         | .ok v => .ok (.Complete v, s))) ∧
    (∀ (s : ByteStream) (options : ReaderOptions)
       (segment_count first_segment_len : Nat) (buf1 buf2 : List Byte),
      buf1.length = buf2.length → 4 * (segment_count - 1) ≤ buf1.length →
      buf1.take (4 * (segment_count - 1)) = buf2.take (4 * (segment_count - 1)) →
      read_segment_table_rest s options segment_count first_segment_len buf1
          buf1.length =
        read_segment_table_rest s options segment_count first_segment_len buf2
          buf2.length) ∧
    read_segment_table (feed [0, 0, 0, 0, 0, 0, 0, 0]) ⟨8388608⟩ =
      .ok (.Complete (0, [(0, 0)]), []) ∧
    read_segment_table (feed [1, 0, 0, 0, 1, 0, 0, 0, 1, 0, 0, 0, 0, 0, 0, 0])
        ⟨8388608⟩ =
      .ok (.Complete (2, [(0, 1), (1, 2)]), []) := by
  refine ⟨build_segment_slices_eq, read_segment_table_rest_full, ?_, by decide, by decide⟩
  intro s options segment_count first_segment_len buf1 buf2 hlen h4 hpre
  rw [read_segment_table_rest_full, read_segment_table_rest_full,
    parse_segment_table_rest_padding options segment_count first_segment_len buf1 buf2
      h4 (by omega) hpre]

/-- C5 witness: two full 8-byte phase-2 buffers for a 2-segment table that
agree on the single interpreted entry but have different padding decode
identically, and the closed-form fold at a concrete input. -/
theorem C5_segment_slices_witness :
    read_segment_table_rest [] ⟨8388608⟩ 2 1 [1, 0, 0, 0, 9, 9, 9, 9] 8 =
      read_segment_table_rest [] ⟨8388608⟩ 2 1 [1, 0, 0, 0, 0, 0, 0, 0] 8 ∧
    build_segment_slices 1 [[1, 0, 0, 0], [0, 1, 0, 0]] =
      (258, [(0, 1), (1, 2), (2, 258)]) := by
  constructor
  · exact C5_segment_slices.2.2.1 [] ⟨8388608⟩ 2 1 [1, 0, 0, 0, 9, 9, 9, 9]
      [1, 0, 0, 0, 0, 0, 0, 0] (by decide) (by decide) (by decide)
  · rw [C5_segment_slices.1 1 [[1, 0, 0, 0], [0, 1, 0, 0]]]
    decide

/-- C7: when phase 1 yields `segment_count = 1`, `read_message` skips the
phase-2 decoder entirely (no phase-2 table buffer is ever allocated) and uses
`first_segment_len` directly as the sole segment's length and total, with
slices `[(0, first_segment_len)]`. -/
theorem C7_single_segment_shortcut :
    ∀ (s s1 : ByteStream) (options : ReaderOptions) (first_segment_len : Nat),
      read_segment_table_first s [] = .ok (.Complete (1, first_segment_len), s1) →
      read_message s options =
        (read_segments s1 options [(0, first_segment_len)] first_segment_len [],
          [.wordBuf first_segment_len]) ∧
      ∀ n, Alloc.tableBuf n ∉ (read_message s options).2 := by
  intro s s1 options first_segment_len hyp
  have heq : read_message s options =
      (read_segments s1 options [(0, first_segment_len)] first_segment_len [],
        [.wordBuf first_segment_len]) := by
    show read_message_from s options [] = _
    unfold read_message_from
    rw [hyp]
    dsimp only
    simp only [reduceIte]
  refine ⟨heq, fun n => ?_⟩
  rw [heq]
  simp

/-- C7 witness: a concrete single-segment message (count field 0, length 2,
16 body bytes): the shortcut fires, the log holds only the word-buffer
allocation. -/
theorem C7_single_segment_shortcut_witness :
    read_message (feed [0, 0, 0, 0, 2, 0, 0, 0,
        1, 2, 3, 4, 5, 6, 7, 8, 9, 10, 11, 12, 13, 14, 15, 16]) ⟨8388608⟩ =
      (read_segments (feed [1, 2, 3, 4, 5, 6, 7, 8, 9, 10, 11, 12, 13, 14, 15, 16])
          ⟨8388608⟩ [(0, 2)] 2 [], [.wordBuf 2]) ∧
    Alloc.tableBuf 8 ∉
      (read_message (feed [0, 0, 0, 0, 2, 0, 0, 0,
        1, 2, 3, 4, 5, 6, 7, 8, 9, 10, 11, 12, 13, 14, 15, 16]) ⟨8388608⟩).2 := by
  have h := C7_single_segment_shortcut
    (feed [0, 0, 0, 0, 2, 0, 0, 0, 1, 2, 3, 4, 5, 6, 7, 8, 9, 10, 11, 12, 13, 14, 15, 16])
    (feed [1, 2, 3, 4, 5, 6, 7, 8, 9, 10, 11, 12, 13, 14, 15, 16]) ⟨8388608⟩ 2
    (by decide)
  exact ⟨h.1, h.2 8⟩

/-- C3: suspend/resume equivalence. For any split of the input at a byte
boundary: if feeding the first chunk yields a `Continue`, then resuming that
continuation on the second chunk produces exactly the result of decoding the
whole input in one pass — for each phase individually, and for the composed
`read_message` (where the allocation logs of the two runs concatenate). -/
theorem C3_suspend_resume_equivalence :
    (∀ (p l1 l2 : List Byte) (c : ReadContinuation) (s1 : ByteStream),
      read_segment_table_first (feed l1) p = .ok (.Continue c, s1) →
      c = .segmentTableFirst (p ++ l1) ∧ s1 = [] ∧
      read_segment_table_first (feed (l1 ++ l2)) p =
        read_segment_table_first (feed l2) (p ++ l1)) ∧
    (∀ (options : ReaderOptions) (segment_count first_segment_len : Nat)
       (p l1 l2 : List Byte) (buf_len : Nat) (c : ReadContinuation)
       (s1 : ByteStream),
      read_segment_table_rest (feed l1) options segment_count first_segment_len p
          buf_len = .ok (.Continue c, s1) →
      c = .segmentTableRest segment_count first_segment_len buf_len (p ++ l1) ∧
      s1 = [] ∧
      read_segment_table_rest (feed (l1 ++ l2)) options segment_count
          first_segment_len p buf_len =
        read_segment_table_rest (feed l2) options segment_count first_segment_len
          (p ++ l1) buf_len) ∧
    (∀ (options : ReaderOptions) (segment_slices : List (Nat × Nat))
       (total_words : Nat) (p l1 l2 : List Byte) (c : ReadContinuation)
       (s1 : ByteStream),
      read_segments (feed l1) options segment_slices total_words p =
        .ok (.Continue c, s1) →
      c = .segments segment_slices total_words (p ++ l1) ∧ s1 = [] ∧
      read_segments (feed (l1 ++ l2)) options segment_slices total_words p =
        read_segments (feed l2) options segment_slices total_words (p ++ l1)) ∧
    (∀ (l1 l2 : List Byte) (options : ReaderOptions) (c : ReadContinuation)
       (s1 : ByteStream) (log : List Alloc),
      read_message (feed l1) options = (.ok (.Continue c, s1), log) →
      s1 = [] ∧
      read_message (feed (l1 ++ l2)) options =
        ((resume_message c (feed l2) options).1,
          log ++ (resume_message c (feed l2) options).2)) := by
  refine ⟨?_, ?_, ?_, ?_⟩
  · intro p l1 l2 c s1 hyp
    obtain ⟨hc, hs, hsplit⟩ := read_segment_table_first_split p l1 c s1 hyp
    exact ⟨hc, hs, hsplit l2⟩
  · intro options segment_count first_segment_len p l1 l2 buf_len c s1 hyp
    obtain ⟨hc, hs, hsplit⟩ := read_segment_table_rest_split options segment_count
      first_segment_len p l1 buf_len c s1 hyp
    exact ⟨hc, hs, hsplit l2⟩
  · intro options segment_slices total_words p l1 l2 c s1 hyp
    obtain ⟨hc, hs, hsplit⟩ := read_segments_split options segment_slices total_words
      p l1 c s1 hyp
    exact ⟨hc, hs, hsplit l2⟩
  · intro l1 l2 options c s1 log hyp
    obtain ⟨hs, hsplit⟩ := read_message_from_split options [] l1 c s1 log hyp
    exact ⟨hs, hsplit l2⟩

/-- C3 witness: concrete split instances for each phase and for the composed
`read_message`, each suspension hypothesis discharged by evaluation. -/
theorem C3_suspend_resume_equivalence_witness :
    (read_segment_table_first (feed ([1, 2] ++ [3, 4, 5, 6, 7, 8])) [] =
      read_segment_table_first (feed [3, 4, 5, 6, 7, 8]) ([] ++ [1, 2])) ∧
    (read_segment_table_rest (feed ([1, 0] ++ [0, 0, 0, 0, 0, 0])) ⟨8388608⟩ 2 1 [] 8 =
      read_segment_table_rest (feed [0, 0, 0, 0, 0, 0]) ⟨8388608⟩ 2 1 ([] ++ [1, 0]) 8) ∧
    (read_segments (feed ([9, 9] ++ [1, 2, 3, 4, 5, 6])) ⟨8388608⟩ [(0, 1)] 1 [] =
      read_segments (feed [1, 2, 3, 4, 5, 6]) ⟨8388608⟩ [(0, 1)] 1 ([] ++ [9, 9])) ∧
    (read_message (feed ([0, 0, 0, 0] ++ [0, 0, 0, 0])) ⟨8388608⟩ =
      ((resume_message (.segmentTableFirst [0, 0, 0, 0]) (feed [0, 0, 0, 0])
          ⟨8388608⟩).1,
        [] ++ (resume_message (.segmentTableFirst [0, 0, 0, 0]) (feed [0, 0, 0, 0])
          ⟨8388608⟩).2)) := by
  refine ⟨?_, ?_, ?_, ?_⟩
  · exact (C3_suspend_resume_equivalence.1 [] [1, 2] [3, 4, 5, 6, 7, 8]
      (.segmentTableFirst [1, 2]) [] (by decide)).2.2
  · exact (C3_suspend_resume_equivalence.2.1 ⟨8388608⟩ 2 1 [] [1, 0] [0, 0, 0, 0, 0, 0]
      8 (.segmentTableRest 2 1 8 [1, 0]) [] (by decide)).2.2
  · exact (C3_suspend_resume_equivalence.2.2.1 ⟨8388608⟩ [(0, 1)] 1 [] [9, 9]
      [1, 2, 3, 4, 5, 6] (.segments [(0, 1)] 1 [9, 9]) [] (by decide)).2.2
  · exact (C3_suspend_resume_equivalence.2.2.2 [0, 0, 0, 0] [0, 0, 0, 0] ⟨8388608⟩
      (.segmentTableFirst [0, 0, 0, 0]) [] [] (by decide)).2

/-- C1 counterexample: a single-segment message declaring 1 word with the
traversal limit set to 0 — the declared total (1) exceeds the limit, yet
`read_message` completes successfully and allocates the 1-word buffer: the
claim's "any segment count ≥ 1" fails for `segment_count = 1`, where the
phase-2 limit check is skipped entirely. -/
theorem C1_counterexample :
    (0 : Nat) < 1 ∧
    read_message (feed [0, 0, 0, 0, 1, 0, 0, 0, 1, 2, 3, 4, 5, 6, 7, 8]) ⟨0⟩ =
      (.ok (.Complete ⟨⟨0⟩, [(0, 1)], [[1, 2, 3, 4, 5, 6, 7, 8]]⟩, []),
        [.wordBuf 1]) :=
  ⟨by decide, by decide⟩

/-- C1 (amended): for messages with `segment_count ≥ 2` — the only path through
the phase-2 decoder — a table declaring a total beyond the traversal limit
fails with the too-large decode error before any word buffer is allocated
(whatever bytes follow the table), and a message whose total is exactly the
limit decodes successfully. Single-segment messages bypass the check (see the
counterexample). -/
theorem C1_traversal_limit :
    (∀ (options : ReaderOptions) (first_segment_len : Nat) (restLens : List Nat)
       (junk : List Byte),
      restLens ≠ [] → restLens.length + 1 < 512 →
      first_segment_len < 4294967296 → (∀ x ∈ restLens, x < 4294967296) →
      options.traversal_limit_in_words < first_segment_len + restLens.sum →
      read_message (feed (encode_seg_table (first_segment_len :: restLens) ++ junk))
          options =
        (.error (.decode
            "Message is too large. To increase the limit on the receiving end, see capnp::ReaderOptions."
            (some (toString (first_segment_len + restLens.sum)))),
          [.tableBuf (create_segment_table_buf (restLens.length + 1))]) ∧
      ∀ n, Alloc.wordBuf n ∉
        (read_message (feed (encode_seg_table (first_segment_len :: restLens) ++ junk))
          options).2) ∧
    (∀ (options : ReaderOptions) (segments : List (List (List Byte))),
      segments ≠ [] → segments.length < 512 →
      (∀ seg ∈ segments, seg.length < 4294967296) →
      (∀ seg ∈ segments, ∀ w ∈ seg, w.length = 8) →
      (segments.map List.length).sum = options.traversal_limit_in_words →
      read_message (feed (encode_message segments)) options =
        (.ok (.Complete ⟨options, slicesFrom 0 (segments.map List.length),
            segments.flatten⟩, []),
          (if segments.length = 1 then []
           else [.tableBuf (create_segment_table_buf segments.length)]) ++
            [.wordBuf ((segments.map List.length).sum)])) := by
  constructor
  · intro options fsl restLens junk hne hlt hfsl hlens hover
    have hassoc : encode_seg_table (fsl :: restLens) ++ junk =
        (u32le restLens.length ++ u32le fsl) ++
          (((restLens.map u32le).flatten ++
              (if (restLens.length + 1) % 2 = 0 then [0, 0, 0, 0] else [])) ++ junk) := by
      simp [encode_seg_table, List.append_assoc]
    have heq : read_message (feed (encode_seg_table (fsl :: restLens) ++ junk))
        options =
        (.error (.decode
            "Message is too large. To increase the limit on the receiving end, see capnp::ReaderOptions."
            (some (toString (fsl + restLens.sum)))),
          [.tableBuf (create_segment_table_buf (restLens.length + 1))]) := by
      show read_message_from _ options [] = _
      rw [hassoc]
      unfold read_message_from
      rw [phase1_of_encoded restLens.length fsl _ (by omega) hfsl]
      dsimp only
      rw [if_neg (show ¬ (restLens.length + 1 = 1) by
        cases restLens with
        | nil => exact absurd rfl hne
        | cons a b => simp)]
      rw [phase2_of_encoded_over options (restLens.length + 1) fsl restLens _ junk
        hlens (by simp) (encoded_table_len restLens) hover]
    refine ⟨heq, fun n => ?_⟩
    rw [heq]
    simp
  · intro options segments hne hcnt hlens hwords hsum
    exact round_trip_one_pass options segments hne hcnt hlens hwords (le_of_eq hsum)

/-- C1 witness: a 2-segment table declaring 2 words against a limit of 0 fails
with the too-large error, allocating only the table buffer; a 1-word message
against a limit of exactly 1 succeeds. -/
theorem C1_traversal_limit_witness :
    read_message (feed (encode_seg_table [1, 1] ++ [])) ⟨0⟩ =
      (.error (.decode
          "Message is too large. To increase the limit on the receiving end, see capnp::ReaderOptions."
          (some "2")),
        [.tableBuf 8]) ∧
    Alloc.wordBuf 2 ∉ (read_message (feed (encode_seg_table [1, 1] ++ [])) ⟨0⟩).2 ∧
    read_message (feed (encode_message [[[7, 7, 7, 7, 7, 7, 7, 7]]])) ⟨1⟩ =
      (.ok (.Complete ⟨⟨1⟩, [(0, 1)], [[7, 7, 7, 7, 7, 7, 7, 7]]⟩, []),
        [.wordBuf 1]) := by
  have h1 := (C1_traversal_limit.1 ⟨0⟩ 1 [1] [] (by decide) (by decide) (by decide)
    (by decide) (by decide))
  have h2 := C1_traversal_limit.2 ⟨1⟩ [[[7, 7, 7, 7, 7, 7, 7, 7]]] (by decide)
    (by decide) (by decide) (by decide) (by decide)
  refine ⟨?_, h1.2 2, ?_⟩
  · rw [h1.1]
    decide
  · rw [h2]
    decide

set_option maxRecDepth 8000 in
/-- C4 counterexample: a list of 512 empty segments is non-empty, yet feeding
its encoding to the decoder one byte at a time fails with "Too many segments."
instead of yielding a `Complete` message: the claim's "for every non-empty list
of segments" fails once the count validation (or the traversal limit) is
violated. -/
theorem C4_counterexample :
    List.replicate 512 ([] : List (List Byte)) ≠ [] ∧
    read_message_chunked ⟨8388608⟩
        ((encode_message (List.replicate 512 [])).map fun b => [b]) =
      (.error (.decode "Too many segments." (some "512")), []) :=
  ⟨by decide, by decide⟩

/-- C4 (amended): for every non-empty list of fewer than 512 segments (each a
sequence of 8-byte words, empty segments allowed, lengths within 32 bits)
whose total word count is within the traversal limit, encoding and then
decoding with `read_message` — the bytes arriving one at a time, forcing
repeated suspend/resume — yields a `Complete` message reader whose segment
contents, read back by index, exactly equal the original segments. -/
theorem C4_round_trip :
    ∀ (options : ReaderOptions) (segments : List (List (List Byte))),
      segments ≠ [] → segments.length < 512 →
      (∀ seg ∈ segments, seg.length < 4294967296) →
      (∀ seg ∈ segments, ∀ w ∈ seg, w.length = 8) →
      (segments.map List.length).sum ≤ options.traversal_limit_in_words →
      (read_message_chunked options
          ((encode_message segments).map fun b => [b])).1.map Prod.fst =
        .ok (.Complete ⟨options, slicesFrom 0 (segments.map List.length),
          segments.flatten⟩) ∧
      ∀ (i : Nat) (h : i < segments.length),
        (OwnedSpaceMessageReader.mk options (slicesFrom 0 (segments.map List.length))
          segments.flatten).get_segment i = segments[i] := by
  intro options segments hne hcnt hlens hwords hlimit
  constructor
  · have hj := read_message_chunked_join options
      ((encode_message segments).map fun b => [b])
    rw [flatten_singletons] at hj
    rw [round_trip_one_pass options segments hne hcnt hlens hwords hlimit] at hj
    have hfst := congrArg Prod.fst hj
    unfold obsOf at hfst
    simpa [Except.map] using hfst
  · intro i h
    exact get_segment_of_message options segments i h

/-- C4 witness: the two-segment message (one 8-byte word, then an empty
segment) decodes byte-by-byte to the expected message, and both segments read
back equal the originals. -/
theorem C4_round_trip_witness :
    (read_message_chunked ⟨8388608⟩
        ((encode_message [[[1, 2, 3, 4, 5, 6, 7, 8]], []]).map fun b => [b])).1.map
        Prod.fst =
      .ok (.Complete ⟨⟨8388608⟩, [(0, 1), (1, 1)], [[1, 2, 3, 4, 5, 6, 7, 8]]⟩) ∧
    (OwnedSpaceMessageReader.mk ⟨8388608⟩ [(0, 1), (1, 1)]
      [[1, 2, 3, 4, 5, 6, 7, 8]]).get_segment 0 = [[1, 2, 3, 4, 5, 6, 7, 8]] ∧
    (OwnedSpaceMessageReader.mk ⟨8388608⟩ [(0, 1), (1, 1)]
      [[1, 2, 3, 4, 5, 6, 7, 8]]).get_segment 1 = [] := by
  have h := C4_round_trip ⟨8388608⟩ [[[1, 2, 3, 4, 5, 6, 7, 8]], []] (by decide)
    (by decide) (by decide) (by decide) (by decide)
  exact ⟨h.1, h.2 0 (by decide), h.2 1 (by decide)⟩

